import Mathlib

/-!
# Shallow embedding of `src/src/txmempool.cpp` (koto mempool core)

This file embeds the data model and the operations of `CTxMemPool`
(`txmempool.cpp`) as executable Lean definitions and proves properties of
them.  Transactions, entries and the pool's cross maps are modelled with
plain lists; `std::map` becomes an association list with
insert/assign/erase, `boost::multi_index` keyed by txid becomes a list of
entries looked up by txid.  Hashes (txids, nullifiers, anchors) are
modelled as natural numbers.  Machine counters (`uint64_t`,
`unsigned int`) use explicit modular arithmetic.  External collaborators
(the fee estimator, logging) have no pool-visible state and are dropped;
the insight-explorer address/spent indexes are modelled in the
configuration `fAddressIndex = fSpentIndex = false` in which
`txmempool.cpp` leaves them untouched.
-/

/-- An outpoint `(prev txid, output index)` (`COutPoint`). -/
abbrev OutPt := Nat × Nat

/-- A joinsplit description (`JSDescription`): sprout anchor, nullifiers and
commitments. -/
structure JSDesc where
  anchor : Nat
  nullifiers : List Nat
  commitments : List Nat
  deriving Repr, DecidableEq

/-- A sapling spend description (`SpendDescription`): anchor and nullifier. -/
structure SpendDesc where
  anchor : Nat
  nullifier : Nat
  deriving Repr, DecidableEq

/-- A transaction (`CTransaction`) restricted to the data `txmempool.cpp`
reads: txid (= `GetHash()`), inputs (`vin` prevouts), outputs (`vout`,
kept as their non-nullness flags), joinsplits, sapling spends, the orchard
bundle's nullifiers, and the expiry height read by `IsExpiredTx`. -/
structure Tx where
  txid : Nat
  vin : List OutPt
  vout : List Bool
  vJoinSplit : List JSDesc
  vShieldedSpend : List SpendDesc
  orchardNullifiers : List Nat
  expiryHeight : Nat
  deriving Repr, DecidableEq

/-- All sprout nullifiers of a transaction, in the iteration order of
`addUnchecked`/`remove` (joinsplits outer, nullifiers inner). -/
def sproutNfs (t : Tx) : List Nat := t.vJoinSplit.flatMap (·.nullifiers)

/-- All sapling nullifiers of a transaction, in iteration order. -/
def saplingNfs (t : Tx) : List Nat := t.vShieldedSpend.map (·.nullifier)

/-- All orchard nullifiers of a transaction
(`tx.GetOrchardBundle().GetNullifiers()`). -/
def orchardNfs (t : Tx) : List Nat := t.orchardNullifiers

/-- Modelled from the spec: `IsExpiredTx(tx, nBlockHeight)` (declared in
`main.h`, not under `src/`): a transaction with a non-zero expiry height is
expired at every height strictly above it. -/
def IsExpiredTx (t : Tx) (nBlockHeight : Nat) : Bool :=
  t.expiryHeight ≠ 0 && t.expiryHeight < nBlockHeight

/-- A mempool entry (`CTxMemPoolEntry`) restricted to the fields
`txmempool.cpp` reads: the transaction, fee, fee delta, cached serialized
size, cached dynamic usage, admission height and the branch id. -/
structure Entry where
  tx : Tx
  fee : Int
  feeDelta : Int
  txSize : Nat
  usageSize : Nat
  entryHeight : Nat
  branchId : Nat
  deriving Repr, DecidableEq

/-- The effective (modified) fee of an entry: base fee plus the
prioritisation fee delta.  The ranking score is the fee rate computed from
this quantity (spec §3 "Derived"). -/
def Entry.effectiveFee (e : Entry) : Int := e.fee + e.feeDelta

/-! ## Association-list maps (`std::map`) -/

/-- `std::map::find`: value of the first pair with the given key. -/
def lookupA {K V : Type} [DecidableEq K] (m : List (K × V)) (k : K) : Option V :=
  (m.find? (fun p => p.1 = k)).map (·.2)

/-- `std::map` assignment `m[k] = v`: replace the value at `k` or append a
fresh pair. -/
def insertA {K V : Type} [DecidableEq K] (m : List (K × V)) (k : K) (v : V) :
    List (K × V) :=
  if (m.find? (fun p => p.1 = k)).isSome then
    m.map (fun p => if p.1 = k then (k, v) else p)
  else m ++ [(k, v)]

/-- `std::map::erase(k)`: drop every pair with the given key. -/
def eraseA {K V : Type} [DecidableEq K] (m : List (K × V)) (k : K) :
    List (K × V) :=
  m.filter (fun p => p.1 ≠ k)

/-- Erase a list of keys in order. -/
def eraseAllA {K V : Type} [DecidableEq K] (m : List (K × V)) (ks : List K) :
    List (K × V) :=
  ks.foldl eraseA m

/-! ## The entry set (`indexed_transaction_set mapTx`) -/

/-- `mapTx.find(h)`: the first entry whose transaction hashes to `h`. -/
def findTx (l : List Entry) (h : Nat) : Option Entry :=
  l.find? (fun e => e.tx.txid = h)

/-- `mapTx.erase(h)`: drop every entry whose transaction hashes to `h`. -/
def eraseTx (l : List Entry) (h : Nat) : List Entry :=
  l.filter (fun e => e.tx.txid ≠ h)

/-- `mapTx.insert(e)` of the unique-by-txid multi-index: keep the existing
entry on a duplicate txid, else append; returns the set together with the
entry the returned iterator designates. -/
def insertTxSet (l : List Entry) (e : Entry) : List Entry × Entry :=
  match findTx l e.tx.txid with
  | some old => (l, old)
  | none => (l ++ [e], e)

/-- `mapTx.modify(it, update_fee_delta(d))`: set the fee delta of the entry
at the given txid. -/
def modifyFeeDelta (l : List Entry) (h : Nat) (d : Int) : List Entry :=
  l.map (fun e => if e.tx.txid = h then { e with feeDelta := d } else e)

/-! ## Pool state (`CTxMemPool`) -/

/-- Width of `uint64_t` counters. -/
def W64 : Nat := 2 ^ 64

/-- Width of `unsigned int` counters. -/
def W32 : Nat := 2 ^ 32

/-- The mutable state of `CTxMemPool` that `txmempool.cpp` manipulates.
`mapNextTx` stores `CInPoint` as `(spender txid, input index)` — the
source's `const CTransaction*` back-pointer is represented by the hash of
the pointed-to transaction, which is how the pointer is consumed
(`it->second.ptx->GetHash()`, `*it->second.ptx`).  The nullifier maps
likewise store the spending transaction's txid.  `weightedTxTree` keeps
one `(txid, weight)` node per `WeightedTxTree::add`; the weight is
modelled from the spec as `fee_weight(tx_size, fee)` since
`WeightedTxInfo::from` is not under `src/`. -/
structure MemPool where
  mapTx : List Entry
  mapNextTx : List (OutPt × (Nat × Nat))
  mapSproutNullifiers : List (Nat × Nat)
  mapSaplingNullifiers : List (Nat × Nat)
  mapOrchardNullifiers : List (Nat × Nat)
  mapDeltas : List (Nat × (Int × Int))
  mapRecentlyAddedTx : List Nat
  nRecentlyAddedSequence : Nat
  totalTxSize : Nat
  cachedInnerUsage : Nat
  nTransactionsUpdated : Nat
  weightedTxTree : List (Nat × (Nat × Int))
  deriving Repr, DecidableEq

/-- The pool state after the constructor's unlocked `_clear()`: every
container empty, counters zero (`nTransactionsUpdated` starts at 0 and
`_clear` bumps it once). -/
def emptyPool : MemPool :=
  { mapTx := [], mapNextTx := [], mapSproutNullifiers := []
    mapSaplingNullifiers := [], mapOrchardNullifiers := [], mapDeltas := []
    mapRecentlyAddedTx := [], nRecentlyAddedSequence := 0, totalTxSize := 0
    cachedInnerUsage := 0, nTransactionsUpdated := 1, weightedTxTree := [] }

/-- `CTxMemPool::_clear()`: clears `mapTx` and `mapNextTx` and resets the
two size counters; the nullifier maps, `mapRecentlyAddedTx`, `mapDeltas`
and the weighted tree are left untouched by the source. -/
def clearUnlocked (s : MemPool) : MemPool :=
  { s with mapTx := [], mapNextTx := [], totalTxSize := 0
           cachedInnerUsage := 0
           nTransactionsUpdated := (s.nTransactionsUpdated + 1) % W32 }

/-- `CTxMemPool::clear()` (takes the lock and calls `_clear`). -/
def clearPool (s : MemPool) : MemPool := clearUnlocked s

/-! ## `addUnchecked` -/

/-- Modelled from the spec: the weight stored per tree node,
`fee_weight(tx_size, fee)` (the source's `WeightedTxInfo::from(tx, fee)`
lives outside `src/`). -/
def feeWeight (txSize : Nat) (fee : Int) : Nat × Int := (txSize, fee)

/-- `CTxMemPool::addUnchecked(hash, entry, fCurrentEstimate)`:
tree add, `mapTx` insert, usage/size counters, recently-added queue,
`mapNextTx` rows for each input, the three nullifier maps, and the
`mapDeltas[hash]` fee-delta application.  The estimator call has no
pool-visible effect. -/
def addUnchecked (s : MemPool) (hash : Nat) (entry : Entry) : MemPool :=
  let tree := s.weightedTxTree ++ [(entry.tx.txid, feeWeight entry.txSize entry.fee)]
  let (mapTx1, newit) := insertTxSet s.mapTx entry
  let tx := newit.tx
  let recent := if tx.txid ∈ s.mapRecentlyAddedTx then s.mapRecentlyAddedTx
                else s.mapRecentlyAddedTx ++ [tx.txid]
  let nextTx := (tx.vin.enum).foldl
      (fun m ip => insertA m ip.2 (tx.txid, ip.1)) s.mapNextTx
  let sprout := (sproutNfs tx).foldl (fun m nf => insertA m nf tx.txid)
      s.mapSproutNullifiers
  let sapling := (saplingNfs tx).foldl (fun m nf => insertA m nf tx.txid)
      s.mapSaplingNullifiers
  let orchard := (orchardNfs tx).foldl (fun m nf => insertA m nf tx.txid)
      s.mapOrchardNullifiers
  let mapTx2 := match lookupA s.mapDeltas hash with
    | some d => if d.2 ≠ 0 then modifyFeeDelta mapTx1 tx.txid d.2 else mapTx1
    | none => mapTx1
  { s with
    weightedTxTree := tree
    mapTx := mapTx2
    cachedInnerUsage := (s.cachedInnerUsage + entry.usageSize) % W64
    mapRecentlyAddedTx := recent
    nRecentlyAddedSequence := (s.nRecentlyAddedSequence + 1) % W64
    mapNextTx := nextTx
    mapSproutNullifiers := sprout
    mapSaplingNullifiers := sapling
    mapOrchardNullifiers := orchard
    nTransactionsUpdated := (s.nTransactionsUpdated + 1) % W32
    totalTxSize := (s.totalTxSize + entry.txSize) % W64 }

/-! ## `remove` (the recursive-removal work queue) -/

/-- `uint64_t` subtraction `a -= b` on values kept below `2^64`. -/
def subW64 (a b : Nat) : Nat := (a + (W64 - b % W64)) % W64

/-- The consumers of outputs `0 .. n-1` of `h` found in `mapNextTx`
(`it->second.ptx->GetHash()` for each hit), in ascending output order. -/
def consumersOf (m : List (OutPt × (Nat × Nat))) (h : Nat) (n : Nat) : List Nat :=
  (List.range n).filterMap (fun i => (lookupA m (h, i)).map (·.1))

/-- One removal step of the work-queue body: unhook the entry `e` (found at
hash `h`) from `mapRecentlyAddedTx`, `mapNextTx` (each input), the three
nullifier maps, the size/usage counters and `mapTx` itself. -/
def removeEntryFrom (s : MemPool) (h : Nat) (e : Entry) : MemPool :=
  { s with
    mapRecentlyAddedTx := s.mapRecentlyAddedTx.filter (· ≠ h)
    mapNextTx := eraseAllA s.mapNextTx e.tx.vin
    mapSproutNullifiers := eraseAllA s.mapSproutNullifiers (sproutNfs e.tx)
    mapSaplingNullifiers := eraseAllA s.mapSaplingNullifiers (saplingNfs e.tx)
    mapOrchardNullifiers := eraseAllA s.mapOrchardNullifiers (orchardNfs e.tx)
    totalTxSize := subW64 s.totalTxSize e.txSize
    cachedInnerUsage := subW64 s.cachedInnerUsage e.usageSize
    mapTx := eraseTx s.mapTx h
    nTransactionsUpdated := (s.nTransactionsUpdated + 1) % W32 }

/-- Termination weight of one entry: popping it costs the enqueue of at
most `vout.length` consumers. -/
def entryWeight (e : Entry) : Nat := 1 + e.tx.vout.length

/-- Termination weight of the entry set. -/
def poolWeight (l : List Entry) : Nat := (l.map entryWeight).sum

theorem findTx_cons (a : Entry) (l : List Entry) (h : Nat) :
    findTx (a :: l) h = if a.tx.txid = h then some a else findTx l h := by
  by_cases ha : a.tx.txid = h <;> simp [findTx, List.find?_cons, ha]

theorem eraseTx_cons (a : Entry) (l : List Entry) (h : Nat) :
    eraseTx (a :: l) h = if a.tx.txid = h then eraseTx l h else a :: eraseTx l h := by
  by_cases ha : a.tx.txid = h <;> simp [eraseTx, ha]

theorem poolWeight_cons (a : Entry) (l : List Entry) :
    poolWeight (a :: l) = entryWeight a + poolWeight l := by
  simp [poolWeight]

theorem poolWeight_filter_le (l : List Entry) (p : Entry → Bool) :
    poolWeight (l.filter p) ≤ poolWeight l := by
  induction l with
  | nil => simp
  | cons a l ih =>
    by_cases ha : p a = true <;>
      simp [List.filter_cons, ha, poolWeight_cons] <;> omega

theorem poolWeight_eraseTx (l : List Entry) (h : Nat) (e : Entry)
    (hf : findTx l h = some e) :
    poolWeight (eraseTx l h) + entryWeight e ≤ poolWeight l := by
  induction l with
  | nil => simp [findTx] at hf
  | cons a l ih =>
    rw [findTx_cons] at hf
    rw [eraseTx_cons]
    by_cases ha : a.tx.txid = h
    · simp only [ha, if_true] at hf ⊢
      cases hf
      have := poolWeight_filter_le l (fun e => e.tx.txid ≠ h)
      rw [poolWeight_cons]
      have h2 : poolWeight (eraseTx l h) ≤ poolWeight l := poolWeight_filter_le l _
      omega
    · simp only [ha, if_false] at hf ⊢
      rw [poolWeight_cons, poolWeight_cons]
      have := ih hf
      omega

theorem consumersOf_length_le (m : List (OutPt × (Nat × Nat))) (h n : Nat) :
    (consumersOf m h n).length ≤ n := by
  have := List.length_filterMap_le
      (fun i => (lookupA m (h, i)).map (·.1)) (List.range n)
  simpa [consumersOf] using this

/-- The work-queue loop of `CTxMemPool::remove`: pop the front hash, skip
it when absent, otherwise enqueue its consumers (when recursive), append
its transaction to the out-list and unhook it from every index. -/
def removeLoop (fRecursive : Bool) (s : MemPool) (queue : List Nat)
    (removed : List Tx) : MemPool × List Tx :=
  match queue with
  | [] => (s, removed)
  | h :: rest =>
    match hf : findTx s.mapTx h with
    | none => removeLoop fRecursive s rest removed
    | some e =>
      removeLoop fRecursive (removeEntryFrom s h e)
        (if fRecursive then rest ++ consumersOf s.mapNextTx h e.tx.vout.length else rest)
        (removed ++ [e.tx])
termination_by poolWeight s.mapTx + queue.length
decreasing_by
  · simp only [List.length_cons]
    omega
  · have h1 : poolWeight (eraseTx s.mapTx h) + entryWeight e ≤ poolWeight s.mapTx :=
      poolWeight_eraseTx s.mapTx h e hf
    have h2 : (consumersOf s.mapNextTx h e.tx.vout.length).length ≤ e.tx.vout.length :=
      consumersOf_length_le _ _ _
    simp only [removeEntryFrom, entryWeight] at h1 ⊢
    split <;> simp only [List.length_append, List.length_cons] <;> omega

/-- `CTxMemPool::remove(origTx, removed, fRecursive)`: seed the queue with
`origTx`'s hash (plus, when recursively removing an absent root, the
in-pool consumers of its outputs), drain the queue, then drop every
transaction of the accumulated out-list from the weighted tree. -/
def remove (s : MemPool) (origTx : Tx) (removed : List Tx)
    (fRecursive : Bool) : MemPool × List Tx :=
  let queue :=
    if fRecursive && (findTx s.mapTx origTx.txid).isNone then
      origTx.txid :: consumersOf s.mapNextTx origTx.txid origTx.vout.length
    else [origTx.txid]
  let r := removeLoop fRecursive s queue removed
  ({ r.1 with weightedTxTree := r.2.foldl (fun t u => eraseA t u.txid) r.1.weightedTxTree },
   r.2)

/-! ## `removeConflicts` -/

/-- One transparent-conflict step of `CTxMemPool::removeConflicts`: look the
input's prevout up in `mapNextTx`; when it is spent by a transaction other
than `tx` itself (`txConflict != tx`, i.e. different hash), recursively
remove that transaction.  The `const CTransaction*` back-pointer is
dereferenced by resolving the stored txid in `mapTx`. -/
def conflictStepNext (tx : Tx) (sr : MemPool × List Tx) (p : OutPt) :
    MemPool × List Tx :=
  match lookupA sr.1.mapNextTx p with
  | none => sr
  | some hv =>
    match findTx sr.1.mapTx hv.1 with
    | none => sr
    | some ec => if ec.tx.txid ≠ tx.txid then remove sr.1 ec.tx sr.2 true else sr

/-- One shielded-conflict step of `removeConflicts` for the nullifier map
selected by `read`. -/
def conflictStepNf (read : MemPool → List (Nat × Nat)) (tx : Tx)
    (sr : MemPool × List Tx) (nf : Nat) : MemPool × List Tx :=
  match lookupA (read sr.1) nf with
  | none => sr
  | some h =>
    match findTx sr.1.mapTx h with
    | none => sr
    | some ec => if ec.tx.txid ≠ tx.txid then remove sr.1 ec.tx sr.2 true else sr

/-- `CTxMemPool::removeConflicts(tx, removed)`: for each transparent input
and then for each sprout, sapling and orchard nullifier of `tx`,
recursively remove the in-pool spender when it differs from `tx`. -/
def removeConflicts (s : MemPool) (tx : Tx) (removed : List Tx) :
    MemPool × List Tx :=
  let sr1 := tx.vin.foldl (conflictStepNext tx) (s, removed)
  let sr2 := (sproutNfs tx).foldl
      (conflictStepNf (fun st => st.mapSproutNullifiers) tx) sr1
  let sr3 := (saplingNfs tx).foldl
      (conflictStepNf (fun st => st.mapSaplingNullifiers) tx) sr2
  (orchardNfs tx).foldl (conflictStepNf (fun st => st.mapOrchardNullifiers) tx) sr3

/-! ## `removeWithAnchor`, `removeExpired` -/

/-- The three shielded protocols (`ShieldedType`). -/
inductive ShieldedType where
  | sprout
  | sapling
  | orchard
  deriving Repr, DecidableEq

/-- Whether the scan loop of `removeWithAnchor` selects a transaction:
some joinsplit (sprout) or shielded-spend (sapling) anchor equals the
invalidated root.  The source's `switch` has no `ORCHARD` case, so no
transaction is ever selected for that kind. -/
def txMatchesAnchor (t : Tx) (invalidRoot : Nat) (ty : ShieldedType) : Bool :=
  match ty with
  | .sprout => t.vJoinSplit.any (fun js => js.anchor = invalidRoot)
  | .sapling => t.vShieldedSpend.any (fun sd => sd.anchor = invalidRoot)
  | .orchard => false

/-- `CTxMemPool::removeWithAnchor(invalidRoot, type)`: scan the entries,
collect the transactions with a matching anchor, then recursively remove
each (with a fresh local out-list).  For `ORCHARD` the `switch` falls into
`default: throw runtime_error("Unknown shielded type")` on the first entry
scanned, so the call is fatal (`none`) exactly when the pool is
non-empty. -/
def removeWithAnchor (s : MemPool) (invalidRoot : Nat) (ty : ShieldedType) :
    Option MemPool :=
  match ty with
  | .orchard => if s.mapTx.isEmpty then some s else none
  | _ =>
    let toRemove := s.mapTx.filterMap
      (fun e => if txMatchesAnchor e.tx invalidRoot ty then some e.tx else none)
    some (toRemove.foldl (fun st t => (remove st t [] true).1) s)

/-- `CTxMemPool::removeExpired(nBlockHeight)`: scan for entries whose
transaction `IsExpiredTx` at the given height, recursively remove each
(fresh local out-list), and return the scanned txids in iteration
order. -/
def removeExpired (s : MemPool) (nBlockHeight : Nat) : MemPool × List Nat :=
  let toRemove := s.mapTx.filterMap
    (fun e => if IsExpiredTx e.tx nBlockHeight then some e.tx else none)
  (toRemove.foldl (fun st t => (remove st t [] true).1) s, toRemove.map (·.txid))

/-! ## Prioritisation, `removeForBlock` -/

/-- `CTxMemPool::PrioritiseTransaction(hash, _, dPriorityDelta, nFeeDelta)`:
accumulate onto `mapDeltas[hash]` (default-constructed on first touch) and,
when the transaction is in the pool, re-index its entry with the
accumulated fee delta.  The `double` priority delta only ever flows back
out through `ApplyDeltas`; it is modelled as an integer since the pool
never branches on it. -/
def prioritiseTransaction (s : MemPool) (hash : Nat) (dPriorityDelta : Int)
    (nFeeDelta : Int) : MemPool :=
  let d0 := (lookupA s.mapDeltas hash).getD (0, 0)
  let d : Int × Int := (d0.1 + dPriorityDelta, d0.2 + nFeeDelta)
  let mapTx1 := if (findTx s.mapTx hash).isSome then
      modifyFeeDelta s.mapTx hash d.2
    else s.mapTx
  { s with mapDeltas := insertA s.mapDeltas hash d, mapTx := mapTx1 }

/-- `CTxMemPool::ClearPrioritisation(hash)`. -/
def clearPrioritisation (s : MemPool) (hash : Nat) : MemPool :=
  { s with mapDeltas := eraseA s.mapDeltas hash }

/-- `CTxMemPool::removeForBlock(vtx, nBlockHeight, conflicts,
fCurrentEstimate)`: snapshot the in-pool entries of the block's
transactions, then for each block transaction non-recursively remove it,
remove its conflicts (accumulating into `conflicts`), and clear its
prioritisation; finally the estimator is fed the snapshot
(`processBlock(nBlockHeight, entries, fCurrentEstimate)`).  The returned
triple is (state, conflicts out-list, snapshot handed to the
estimator). -/
def removeForBlock (s : MemPool) (vtx : List Tx) (conflicts : List Tx) :
    MemPool × List Tx × List Entry :=
  let entries := vtx.filterMap (fun t => findTx s.mapTx t.txid)
  let sr := vtx.foldl (fun (acc : MemPool × List Tx) t =>
      let s1 := (remove acc.1 t [] false).1
      let acc2 := removeConflicts s1 t acc.2
      (clearPrioritisation acc2.1 t.txid, acc2.2)) (s, conflicts)
  (sr.1, sr.2, entries)

/-! ## Queries, checker, coin-view overlay -/

/-- `CTxMemPool::get(hash)`: the pool transaction at `hash`, if any. -/
def poolGet (s : MemPool) (hash : Nat) : Option Tx :=
  (findTx s.mapTx hash).map (·.tx)

/-- Modelled from the spec: `CompareTxMemPoolEntryByScore` (declared in
`txmempool.h`, not under `src/`): order by effective fee rate
(`(fee + fee_delta) / tx_size`, compared exactly by cross multiplication),
ties broken on txid bytes. -/
def scoreCompare (a b : Entry) : Bool :=
  let fa := a.effectiveFee * (b.txSize : Int)
  let fb := b.effectiveFee * (a.txSize : Int)
  if fa = fb then b.tx.txid < a.tx.txid else fb < fa

/-- `CTxMemPool::CompareDepthAndScore(hasha, hashb)`: absent `hasha` sorts
last, then absent `hashb`, then the score comparator (depth is
intentionally not consulted). -/
def CompareDepthAndScore (s : MemPool) (hasha hashb : Nat) : Bool :=
  match findTx s.mapTx hasha with
  | none => false
  | some i =>
    match findTx s.mapTx hashb with
    | none => true
    | some j => scoreCompare i j

/-- The nullifier map for a shielded type, as selected by the `switch`
statements of `checkNullifiers` and `nullifierExists` (their `default:
throw` branch is unreachable for the three-valued enum). -/
def nullifierMapFor (s : MemPool) (ty : ShieldedType) : List (Nat × Nat) :=
  match ty with
  | .sprout => s.mapSproutNullifiers
  | .sapling => s.mapSaplingNullifiers
  | .orchard => s.mapOrchardNullifiers

/-- `CTxMemPool::checkNullifiers(type)`: `true` iff every row of the
selected map resolves in `mapTx` (the source dereferences the `mapTx.find`
iterator and asserts it is not `end()`; a dangling row fails the
check). -/
def checkNullifiers (s : MemPool) (ty : ShieldedType) : Bool :=
  (nullifierMapFor s ty).all (fun row => (findTx s.mapTx row.2).isSome)

/-- The nullifier-map audit performed by `CTxMemPool::check` (lines
645-646 of `txmempool.cpp`): `checkNullifiers(SPROUT)` and
`checkNullifiers(SAPLING)` — and nothing for the orchard map. -/
def checkNullifierMapsInCheck (s : MemPool) : Bool :=
  checkNullifiers s .sprout && checkNullifiers s .sapling

/-- `CTxMemPool::nullifierExists(nullifier, type)`. -/
def nullifierExists (s : MemPool) (nf : Nat) (ty : ShieldedType) : Bool :=
  (lookupA (nullifierMapFor s ty) nf).isSome

/-- Modelled from the spec: the `MEMPOOL_HEIGHT` sentinel chain height
assigned to synthesized pool coins (declared outside `src/`). -/
def MEMPOOL_HEIGHT : Nat := 0x7FFFFFFF

/-- A `CCoins` record restricted to what `CCoinsViewMemPool::GetCoins`
produces and tests: per-output availability and the height. -/
structure CCoins where
  vout : List Bool
  nHeight : Nat
  deriving Repr, DecidableEq

/-- `CCoins::IsPruned()`: no output is available. -/
def CCoins.isPruned (c : CCoins) : Bool := c.vout.all (fun b => !b)

/-- `CCoins(tx, nHeight)`: a coins record carrying the transaction's
outputs at the given height. -/
def coinsOfTx (t : Tx) (h : Nat) : CCoins := ⟨t.vout, h⟩

/-- `CCoinsViewMemPool::GetCoins(txid, coins)`: a pool transaction always
wins and is synthesized at `MEMPOOL_HEIGHT`; otherwise the base view's
coins are returned only when present and not pruned.  The base view is
modelled as an association list. -/
def mempoolGetCoins (s : MemPool) (base : List (Nat × CCoins)) (txid : Nat) :
    Option CCoins :=
  match poolGet s txid with
  | some t => some (coinsOfTx t MEMPOOL_HEIGHT)
  | none =>
    match lookupA base txid with
    | some c => if c.isPruned then none else some c
    | none => none

/-! ## Well-formedness of a pool state -/

/-- The outpoint spent by input `k` of `t`, paired with its position. -/
def vinRows (t : Tx) : List (Nat × OutPt) := t.vin.enum

/-- Exactness of a nullifier map with respect to the entry set, for the
nullifier-listing function `f`: every row points to an entry carrying that
nullifier, and every nullifier of every entry is mapped to that entry's
txid. -/
def NfMapWF (mapTx : List Entry) (m : List (Nat × Nat)) (f : Tx → List Nat) :
    Prop :=
  (∀ row ∈ m, ∃ e ∈ mapTx, e.tx.txid = row.2 ∧ row.1 ∈ f e.tx) ∧
  (∀ e ∈ mapTx, ∀ nf ∈ f e.tx, lookupA m nf = some e.tx.txid)

/-- Well-formedness of the pool state (§3 invariants 1-3 of the spec):
txids are unique in the entry set, `mapNextTx` is exactly the set of
input rows of the entries, and each nullifier map is exactly the set of
nullifier rows of the entries for its protocol. -/
def PoolWF (s : MemPool) : Prop :=
  (s.mapTx.map (fun e => e.tx.txid)).Nodup ∧
  (∀ row ∈ s.mapNextTx, ∃ e ∈ s.mapTx,
    e.tx.txid = row.2.1 ∧ e.tx.vin.get? row.2.2 = some row.1) ∧
  (∀ e ∈ s.mapTx, ∀ kp ∈ vinRows e.tx,
    lookupA s.mapNextTx kp.2 = some (e.tx.txid, kp.1)) ∧
  NfMapWF s.mapTx s.mapSproutNullifiers sproutNfs ∧
  NfMapWF s.mapTx s.mapSaplingNullifiers saplingNfs ∧
  NfMapWF s.mapTx s.mapOrchardNullifiers orchardNfs

/-- `a` spends one of `b`'s outputs (the edge followed by recursive
descendant removal: `mapNextTx.find(COutPoint(hash, i))` for `i` below
`b`'s output count). -/
def spendsOutputOf (a b : Tx) : Prop :=
  ∃ i, i < b.vout.length ∧ (b.txid, i) ∈ a.vin

instance (a b : Tx) : Decidable (spendsOutputOf a b) := by
  unfold spendsOutputOf
  exact decidable_of_iff (∃ i ∈ List.range b.vout.length, (b.txid, i) ∈ a.vin)
    (by simp [List.mem_range])

/-- `t` conflicts with `tx`: a shared input prevout or a shared nullifier
of any shielded protocol. -/
def overlapsTx (tx t : Tx) : Prop :=
  (∃ p ∈ tx.vin, p ∈ t.vin) ∨
  (∃ nf ∈ sproutNfs tx, nf ∈ sproutNfs t) ∨
  (∃ nf ∈ saplingNfs tx, nf ∈ saplingNfs t) ∨
  (∃ nf ∈ orchardNfs tx, nf ∈ orchardNfs t)

instance (tx t : Tx) : Decidable (overlapsTx tx t) := by
  unfold overlapsTx
  infer_instance

instance (s : MemPool) : Decidable (PoolWF s) := by
  unfold PoolWF NfMapWF
  infer_instance

/-! ## Concrete states used by the examples -/

def txA : Tx :=
  { txid := 1, vin := [(100, 0)], vout := [true], vJoinSplit := []
    vShieldedSpend := [⟨7, 11⟩], orchardNullifiers := [], expiryHeight := 0 }

def entryA : Entry :=
  { tx := txA, fee := 10, feeDelta := 0, txSize := 100, usageSize := 40
    entryHeight := 0, branchId := 0 }

def txB : Tx :=
  { txid := 2, vin := [(1, 0)], vout := [true], vJoinSplit := []
    vShieldedSpend := [], orchardNullifiers := [], expiryHeight := 0 }

def entryB : Entry :=
  { tx := txB, fee := 5, feeDelta := 0, txSize := 50, usageSize := 20
    entryHeight := 0, branchId := 0 }

def poolA : MemPool := addUnchecked emptyPool 1 entryA

def poolAB : MemPool := addUnchecked poolA 2 entryB

def txX : Tx :=
  { txid := 3, vin := [(100, 0)], vout := [true], vJoinSplit := []
    vShieldedSpend := [], orchardNullifiers := [], expiryHeight := 0 }

def txE : Tx :=
  { txid := 4, vin := [(200, 0)], vout := [true], vJoinSplit := []
    vShieldedSpend := [], orchardNullifiers := [], expiryHeight := 5 }

def entryE : Entry :=
  { tx := txE, fee := 10, feeDelta := 0, txSize := 80, usageSize := 30
    entryHeight := 0, branchId := 0 }

def txF : Tx :=
  { txid := 5, vin := [(4, 0)], vout := [true], vJoinSplit := []
    vShieldedSpend := [], orchardNullifiers := [], expiryHeight := 0 }

def entryF : Entry :=
  { tx := txF, fee := 4, feeDelta := 0, txSize := 60, usageSize := 25
    entryHeight := 0, branchId := 0 }

def poolEF : MemPool := addUnchecked (addUnchecked emptyPool 4 entryE) 5 entryF

def txS : Tx :=
  { txid := 6, vin := [], vout := [true], vJoinSplit := [⟨3, [21], []⟩]
    vShieldedSpend := [], orchardNullifiers := [22], expiryHeight := 0 }

def entryS : Entry :=
  { tx := txS, fee := 7, feeDelta := 0, txSize := 90, usageSize := 35
    entryHeight := 0, branchId := 0 }

def poolS : MemPool := addUnchecked emptyPool 6 entryS

def txO : Tx :=
  { txid := 7, vin := [], vout := [true], vJoinSplit := []
    vShieldedSpend := [], orchardNullifiers := [31], expiryHeight := 0 }

def entryO : Entry :=
  { tx := txO, fee := 8, feeDelta := 0, txSize := 70, usageSize := 28
    entryHeight := 0, branchId := 0 }

def poolO : MemPool := addUnchecked emptyPool 7 entryO

/-- `s'` (state after) is obtainable from `s` by erasures only: every entry of `s'` is an
entry of `s`, and every surviving row of each cross map was already
present. -/
structure PoolShrink (s' s : MemPool) : Prop where
  mapTx_sub : ∀ e ∈ s'.mapTx, e ∈ s.mapTx
  next_sub : ∀ p v, lookupA s'.mapNextTx p = some v → lookupA s.mapNextTx p = some v
  sprout_sub : ∀ k v, lookupA s'.mapSproutNullifiers k = some v →
    lookupA s.mapSproutNullifiers k = some v
  sapling_sub : ∀ k v, lookupA s'.mapSaplingNullifiers k = some v →
    lookupA s.mapSaplingNullifiers k = some v
  orchard_sub : ∀ k v, lookupA s'.mapOrchardNullifiers k = some v →
    lookupA s.mapOrchardNullifiers k = some v

/-- Invariant carried through the conflict-scanning folds of
`removeConflicts(tx)`, stated against the starting state `s0` and starting
out-list `r0`: the state stays well-formed and only shrinks, and the
transactions appended to the out-list are exactly the erased entries, each
a conflict of `tx` (overlapping inputs or nullifiers, different txid) or a
spender of an output of some removed transaction. -/
def ConflictInv (s0 : MemPool) (tx : Tx) (r0 : List Tx)
    (sr : MemPool × List Tx) : Prop :=
  PoolWF sr.1 ∧
  PoolShrink sr.1 s0 ∧
  ∃ δ, sr.2 = r0 ++ δ ∧
    (∀ t ∈ δ, (∃ e ∈ s0.mapTx, e.tx = t) ∧
      findTx sr.1.mapTx t.txid = none ∧
      ((overlapsTx tx t ∧ t.txid ≠ tx.txid) ∨
        ∃ f ∈ sr.2, spendsOutputOf t f)) ∧
    (∀ e ∈ s0.mapTx, e ∉ sr.1.mapTx → e.tx ∈ δ)

/-- After `removeConflicts(tx)` has processed outpoint `p`, `mapNextTx`
can only map `p` to `tx` itself. -/
def NextResolved (tx : Tx) (st : MemPool) (p : OutPt) : Prop :=
  ∀ v, lookupA st.mapNextTx p = some v → v.1 = tx.txid

/-- After `removeConflicts(tx)` has processed sprout nullifier `nf`, the
sprout map can only map `nf` to `tx` itself. -/
def SproutResolved (tx : Tx) (st : MemPool) (nf : Nat) : Prop :=
  ∀ h, lookupA st.mapSproutNullifiers nf = some h → h = tx.txid

/-- Sapling analogue of `SproutResolved`. -/
def SaplingResolved (tx : Tx) (st : MemPool) (nf : Nat) : Prop :=
  ∀ h, lookupA st.mapSaplingNullifiers nf = some h → h = tx.txid

/-- Orchard analogue of `SproutResolved`. -/
def OrchardResolved (tx : Tx) (st : MemPool) (nf : Nat) : Prop :=
  ∀ h, lookupA st.mapOrchardNullifiers nf = some h → h = tx.txid

/-! ## Unfolding equations for the removal loop -/

theorem removeLoop_nil (fRecursive : Bool) (s : MemPool) (removed : List Tx) :
    removeLoop fRecursive s [] removed = (s, removed) := by
  rw [removeLoop]

theorem removeLoop_cons_none (fRecursive : Bool) (s : MemPool) (h : Nat)
    (rest : List Nat) (removed : List Tx) (hfind : findTx s.mapTx h = none) :
    removeLoop fRecursive s (h :: rest) removed =
      removeLoop fRecursive s rest removed := by
  rw [removeLoop, hfind]

theorem removeLoop_cons_some (fRecursive : Bool) (s : MemPool) (h : Nat)
    (rest : List Nat) (removed : List Tx) (e : Entry)
    (hfind : findTx s.mapTx h = some e) :
    removeLoop fRecursive s (h :: rest) removed =
      removeLoop fRecursive (removeEntryFrom s h e)
        (if fRecursive then rest ++ consumersOf s.mapNextTx h e.tx.vout.length else rest)
        (removed ++ [e.tx]) := by
  rw [removeLoop, hfind]

/-! ## Association-map lemmas -/

theorem lookupA_mem {K V : Type} [DecidableEq K] {m : List (K × V)} {k : K}
    {v : V} (h : lookupA m k = some v) : (k, v) ∈ m := by
  unfold lookupA at h
  cases hf : m.find? (fun p => p.1 = k) with
  | none => rw [hf] at h; simp at h
  | some p =>
    rw [hf] at h
    have hp := List.find?_some hf
    have hm := List.mem_of_find?_eq_some hf
    simp at h hp
    cases p
    simp_all

theorem lookupA_cons {K V : Type} [DecidableEq K] (p : K × V) (m : List (K × V))
    (k : K) :
    lookupA (p :: m) k = if p.1 = k then some p.2 else lookupA m k := by
  by_cases h : p.1 = k <;> simp [lookupA, List.find?_cons, h]

theorem lookupA_eraseA {K V : Type} [DecidableEq K] (m : List (K × V)) (k k' : K) :
    lookupA (eraseA m k) k' = if k' = k then none else lookupA m k' := by
  induction m with
  | nil => simp [eraseA, lookupA]
  | cons p m ih =>
    by_cases hpk : p.1 = k
    · have h0 : eraseA (p :: m) k = eraseA m k := by simp [eraseA, hpk]
      rw [h0, ih, lookupA_cons]
      by_cases h1 : k' = k
      · simp [h1]
      · have h2 : ¬ p.1 = k' := by rw [hpk]; exact fun hh => h1 hh.symm
        simp [h1, h2]
    · have h0 : eraseA (p :: m) k = p :: eraseA m k := by simp [eraseA, hpk]
      rw [h0, lookupA_cons, lookupA_cons, ih]
      by_cases h1 : p.1 = k'
      · have h2 : ¬ k' = k := fun hh => hpk (h1.trans hh)
        simp [h1, h2]
      · simp [h1]

theorem lookupA_eraseAllA {K V : Type} [DecidableEq K] (ks : List K)
    (m : List (K × V)) (k : K) :
    lookupA (eraseAllA m ks) k = if k ∈ ks then none else lookupA m k := by
  induction ks generalizing m with
  | nil => simp [eraseAllA]
  | cons a ks ih =>
    have : eraseAllA m (a :: ks) = eraseAllA (eraseA m a) ks := rfl
    rw [this, ih, lookupA_eraseA]
    by_cases h1 : k ∈ ks <;> by_cases h2 : k = a <;> simp_all

theorem mem_eraseA {K V : Type} [DecidableEq K] {m : List (K × V)} {k : K}
    {p : K × V} : p ∈ eraseA m k ↔ p ∈ m ∧ p.1 ≠ k := by
  simp [eraseA]

theorem mem_eraseAllA {K V : Type} [DecidableEq K] {ks : List K}
    {m : List (K × V)} {p : K × V} :
    p ∈ eraseAllA m ks ↔ p ∈ m ∧ p.1 ∉ ks := by
  induction ks generalizing m with
  | nil => simp [eraseAllA]
  | cons a ks ih =>
    have : eraseAllA m (a :: ks) = eraseAllA (eraseA m a) ks := rfl
    rw [this, ih]
    simp only [mem_eraseA, List.mem_cons, and_assoc]
    constructor
    · rintro ⟨h1, h2, h3⟩
      exact ⟨h1, by simp [h2, h3]⟩
    · rintro ⟨h1, h2⟩
      simp only [not_or] at h2
      exact ⟨h1, h2.1, h2.2⟩

theorem eraseA_of_lookupA_none {K V : Type} [DecidableEq K] {m : List (K × V)}
    {k : K} (h : lookupA m k = none) : eraseA m k = m := by
  unfold lookupA at h
  rw [Option.map_eq_none'] at h
  rw [List.find?_eq_none] at h
  unfold eraseA
  apply List.filter_eq_self.2
  intro p hp
  have := h p hp
  simpa using this

theorem lookupA_eq_none_iff {K V : Type} [DecidableEq K] {m : List (K × V)}
    {k : K} : lookupA m k = none ↔ ∀ p ∈ m, p.1 ≠ k := by
  unfold lookupA
  rw [Option.map_eq_none', List.find?_eq_none]
  constructor
  · intro h p hp
    have := h p hp
    simpa using this
  · intro h p hp
    simpa using h p hp

theorem eraseAllA_idem {K V : Type} [DecidableEq K] (ks : List K)
    (m : List (K × V)) :
    eraseAllA (eraseAllA m ks) ks = eraseAllA m ks := by
  induction ks generalizing m with
  | nil => rfl
  | cons a ks ih =>
    show eraseAllA (eraseA (eraseAllA (eraseA m a) ks) a) ks = _
    have hnone : lookupA (eraseAllA (eraseA m a) ks) a = none := by
      rw [lookupA_eraseAllA]
      by_cases h : a ∈ ks <;> simp [h, lookupA_eraseA]
    rw [eraseA_of_lookupA_none hnone]
    exact ih (eraseA m a)

/-! ## `mapTx` lemmas -/

theorem findTx_eq_none_iff {l : List Entry} {h : Nat} :
    findTx l h = none ↔ ∀ e ∈ l, e.tx.txid ≠ h := by
  unfold findTx
  rw [List.find?_eq_none]
  constructor
  · intro hf e he
    simpa using hf e he
  · intro hf e he
    simpa using hf e he

theorem findTx_mem {l : List Entry} {h : Nat} {e : Entry}
    (hf : findTx l h = some e) : e ∈ l ∧ e.tx.txid = h := by
  refine ⟨List.mem_of_find?_eq_some hf, ?_⟩
  have := List.find?_some hf
  simpa using this

theorem findTx_of_mem {l : List Entry} {h : Nat} {e : Entry}
    (he : e ∈ l) (hh : e.tx.txid = h) : ∃ e', findTx l h = some e' ∧ e'.tx.txid = h := by
  cases hf : findTx l h with
  | none => exact absurd hh (findTx_eq_none_iff.1 hf e he)
  | some e' => exact ⟨e', rfl, (findTx_mem hf).2⟩

theorem mem_eraseTx {l : List Entry} {h : Nat} {e : Entry} :
    e ∈ eraseTx l h ↔ e ∈ l ∧ e.tx.txid ≠ h := by
  simp [eraseTx]

theorem findTx_eraseTx_self (l : List Entry) (h : Nat) :
    findTx (eraseTx l h) h = none := by
  rw [findTx_eq_none_iff]
  intro e he
  exact (mem_eraseTx.1 he).2

/-! ## The shrinking relation: removal only erases -/


theorem PoolShrink.rfl (s : MemPool) : PoolShrink s s :=
  ⟨fun _ he => he, fun _ _ h => h, fun _ _ h => h, fun _ _ h => h, fun _ _ h => h⟩

theorem PoolShrink.trans {s3 s2 s1 : MemPool} (h32 : PoolShrink s3 s2)
    (h21 : PoolShrink s2 s1) : PoolShrink s3 s1 :=
  ⟨fun e he => h21.mapTx_sub e (h32.mapTx_sub e he),
   fun p v h => h21.next_sub p v (h32.next_sub p v h),
   fun k v h => h21.sprout_sub k v (h32.sprout_sub k v h),
   fun k v h => h21.sapling_sub k v (h32.sapling_sub k v h),
   fun k v h => h21.orchard_sub k v (h32.orchard_sub k v h)⟩

theorem lookupA_eraseAllA_sub {K V : Type} [DecidableEq K] {ks : List K}
    {m : List (K × V)} {k : K} {v : V}
    (h : lookupA (eraseAllA m ks) k = some v) : lookupA m k = some v := by
  rw [lookupA_eraseAllA] at h
  by_cases hk : k ∈ ks
  · simp [hk] at h
  · simpa [hk] using h

theorem PoolShrink.of_removeEntryFrom (s : MemPool) (h : Nat) (e : Entry) :
    PoolShrink (removeEntryFrom s h e) s := by
  constructor
  · intro e' he'
    exact (mem_eraseTx.1 he').1
  all_goals
    intro k v hv
    exact lookupA_eraseAllA_sub hv

/-- `findTx` misses are stable under shrinking. -/
theorem PoolShrink.findTx_none {s' s : MemPool} (hs : PoolShrink s' s) {h : Nat}
    (hf : findTx s.mapTx h = none) : findTx s'.mapTx h = none := by
  rw [findTx_eq_none_iff] at hf ⊢
  intro e he
  exact hf e (hs.mapTx_sub e he)

theorem removeLoop_shrink (fRecursive : Bool) (s : MemPool) (queue : List Nat)
    (removed : List Tx) :
    PoolShrink (removeLoop fRecursive s queue removed).1 s := by
  induction s, queue, removed using removeLoop.induct fRecursive
  case case1 s removed => rw [removeLoop_nil]; exact PoolShrink.rfl s
  case case2 s removed h rest hfind ih =>
    rw [removeLoop_cons_none _ _ _ _ _ hfind]; exact ih
  case case3 s removed h rest e hfind ih =>
    rw [removeLoop_cons_some _ _ _ _ _ _ hfind]
    exact PoolShrink.trans ih (PoolShrink.of_removeEntryFrom s h e)

/-- Every hash in the queue is absent from the entry set after the loop. -/
theorem removeLoop_queue_post (fRecursive : Bool) (s : MemPool)
    (queue : List Nat) (removed : List Tx) :
    ∀ q ∈ queue, findTx (removeLoop fRecursive s queue removed).1.mapTx q = none := by
  induction s, queue, removed using removeLoop.induct fRecursive
  case case1 s removed => simp
  case case2 s removed h rest hfind ih =>
    intro q hq
    rw [removeLoop_cons_none _ _ _ _ _ hfind]
    rcases List.mem_cons.1 hq with rfl | hq
    · exact (removeLoop_shrink _ _ _ _).findTx_none hfind
    · exact ih q hq
  case case3 s removed h rest e hfind ih =>
    intro q hq
    rw [removeLoop_cons_some _ _ _ _ _ _ hfind]
    rcases List.mem_cons.1 hq with rfl | hq
    · refine (removeLoop_shrink _ _ _ _).findTx_none ?_
      show findTx (removeEntryFrom s q e).mapTx q = none
      exact findTx_eraseTx_self s.mapTx q
    · refine ih q ?_
      split
      · exact List.mem_append_left _ hq
      · exact hq

/-- A queue of hashes absent from the entry set drains without effect. -/
theorem removeLoop_noop (fRecursive : Bool) (s : MemPool) (queue : List Nat)
    (removed : List Tx) (habs : ∀ q ∈ queue, findTx s.mapTx q = none) :
    removeLoop fRecursive s queue removed = (s, removed) := by
  induction queue with
  | nil => rw [removeLoop]
  | cons h rest ih =>
    rw [removeLoop]
    have := habs h (List.mem_cons_self h rest)
    rw [this]
    exact ih (fun q hq => habs q (List.mem_cons_of_mem h hq))

/-- The out-list only grows, by transactions taken from entries of the
starting state. -/
theorem removeLoop_removed_spec (fRecursive : Bool) (s : MemPool)
    (queue : List Nat) (removed : List Tx) :
    ∃ δ, (removeLoop fRecursive s queue removed).2 = removed ++ δ ∧
      ∀ t ∈ δ, ∃ e ∈ s.mapTx, e.tx = t := by
  induction s, queue, removed using removeLoop.induct fRecursive
  case case1 s removed => exact ⟨[], by rw [removeLoop_nil]; simp, by simp⟩
  case case2 s removed h rest hfind ih =>
    rw [removeLoop_cons_none _ _ _ _ _ hfind]; exact ih
  case case3 s removed h rest e hfind ih =>
    rw [removeLoop_cons_some _ _ _ _ _ _ hfind]
    obtain ⟨δ, hδ, hmem⟩ := ih
    simp only [dite_eq_ite] at hδ
    refine ⟨e.tx :: δ, by rw [hδ]; simp, ?_⟩
    intro t ht
    rcases List.mem_cons.1 ht with rfl | ht
    · exact ⟨e, (findTx_mem hfind).1, rfl⟩
    · obtain ⟨e', he', rfl⟩ := hmem t ht
      exact ⟨e', (PoolShrink.of_removeEntryFrom s h e).mapTx_sub e' he', rfl⟩

/-! ## Well-formedness: consequences and preservation -/

theorem PoolWF.nodup {s : MemPool} (h : PoolWF s) :
    (s.mapTx.map (fun e => e.tx.txid)).Nodup := h.1

theorem PoolWF.nextFwd {s : MemPool} (h : PoolWF s) :
    ∀ row ∈ s.mapNextTx, ∃ e ∈ s.mapTx,
      e.tx.txid = row.2.1 ∧ e.tx.vin.get? row.2.2 = some row.1 := h.2.1

theorem PoolWF.nextBwd {s : MemPool} (h : PoolWF s) :
    ∀ e ∈ s.mapTx, ∀ kp ∈ vinRows e.tx,
      lookupA s.mapNextTx kp.2 = some (e.tx.txid, kp.1) := h.2.2.1

theorem PoolWF.sproutWF {s : MemPool} (h : PoolWF s) :
    NfMapWF s.mapTx s.mapSproutNullifiers sproutNfs := h.2.2.2.1

theorem PoolWF.saplingWF {s : MemPool} (h : PoolWF s) :
    NfMapWF s.mapTx s.mapSaplingNullifiers saplingNfs := h.2.2.2.2.1

theorem PoolWF.orchardWF {s : MemPool} (h : PoolWF s) :
    NfMapWF s.mapTx s.mapOrchardNullifiers orchardNfs := h.2.2.2.2.2

theorem PoolWF.txid_inj {s : MemPool} (h : PoolWF s) {e1 e2 : Entry}
    (h1 : e1 ∈ s.mapTx) (h2 : e2 ∈ s.mapTx)
    (he : e1.tx.txid = e2.tx.txid) : e1 = e2 :=
  List.inj_on_of_nodup_map h.nodup h1 h2 he

theorem mem_vinRows_iff {t : Tx} {k : Nat} {p : OutPt} :
    (k, p) ∈ vinRows t ↔ t.vin.get? k = some p := by
  unfold vinRows
  rw [List.mk_mem_enum_iff_getElem?, List.get?_eq_getElem?]

theorem vin_mem_iff_get {t : Tx} {p : OutPt} :
    p ∈ t.vin ↔ ∃ k, t.vin.get? k = some p := by
  constructor
  · intro hp
    obtain ⟨k, hk, hget⟩ := List.getElem_of_mem hp
    exact ⟨k, by rw [List.get?_eq_getElem?, List.getElem?_eq_getElem hk, hget]⟩
  · rintro ⟨k, hk⟩
    exact List.get?_mem hk

/-- In a well-formed state, `findTx` succeeds on the txid of any member
entry and returns that very entry. -/
theorem PoolWF.findTx_eq {s : MemPool} (hwf : PoolWF s) {e : Entry}
    (he : e ∈ s.mapTx) : findTx s.mapTx e.tx.txid = some e := by
  obtain ⟨e', hfe', htx⟩ := findTx_of_mem he rfl
  have : e' ∈ s.mapTx := (findTx_mem hfe').1
  have := hwf.txid_inj this he htx
  rw [hfe', this]

theorem NfMapWF.removeEntry {mapTx : List Entry} {m : List (Nat × Nat)}
    {f : Tx → List Nat} (hm : NfMapWF mapTx m f)
    (hnodup : (mapTx.map (fun e => e.tx.txid)).Nodup)
    {h : Nat} {e : Entry} (hf : findTx mapTx h = some e) :
    NfMapWF (eraseTx mapTx h) (eraseAllA m (f e.tx)) f := by
  obtain ⟨hemem, hetx⟩ := findTx_mem hf
  constructor
  · intro row hrow
    obtain ⟨hrm, hrk⟩ := mem_eraseAllA.1 hrow
    obtain ⟨e', he', htx, hnf⟩ := hm.1 row hrm
    refine ⟨e', mem_eraseTx.2 ⟨he', ?_⟩, htx, hnf⟩
    intro hh
    have : e' = e := List.inj_on_of_nodup_map hnodup he' hemem (hh.trans hetx.symm)
    exact hrk (this ▸ hnf)
  · intro e' he' nf hnf
    obtain ⟨he'm, he'ne⟩ := mem_eraseTx.1 he'
    have hne : nf ∉ f e.tx := by
      intro hin
      have h1 := hm.2 e' he'm nf hnf
      have h2 := hm.2 e hemem nf hin
      rw [h1] at h2
      have : e' = e := List.inj_on_of_nodup_map hnodup he'm hemem (by
        simpa using h2)
      exact he'ne (this ▸ hetx)
    rw [lookupA_eraseAllA]
    simp only [hne, if_false]
    exact hm.2 e' he'm nf hnf

theorem PoolWF.preserved_by_removeEntryFrom {s : MemPool} (hwf : PoolWF s) {h : Nat}
    {e : Entry} (hf : findTx s.mapTx h = some e) :
    PoolWF (removeEntryFrom s h e) := by
  obtain ⟨hemem, hetx⟩ := findTx_mem hf
  refine ⟨?_, ?_, ?_, ?_, ?_, ?_⟩
  · show ((eraseTx s.mapTx h).map (fun e => e.tx.txid)).Nodup
    exact hwf.nodup.sublist ((List.filter_sublist _).map _)
  · show ∀ row ∈ eraseAllA s.mapNextTx e.tx.vin, _
    intro row hrow
    obtain ⟨hrm, hrk⟩ := mem_eraseAllA.1 hrow
    obtain ⟨e', he', htx, hget⟩ := hwf.nextFwd row hrm
    refine ⟨e', mem_eraseTx.2 ⟨he', ?_⟩, htx, hget⟩
    intro hh
    have : e' = e := hwf.txid_inj he' hemem (hh.trans hetx.symm)
    subst this
    exact hrk (vin_mem_iff_get.2 ⟨row.2.2, hget⟩)
  · intro e' he' kp hkp
    obtain ⟨he'm, he'ne⟩ := mem_eraseTx.1 he'
    have hget := mem_vinRows_iff.1 hkp
    have hne : kp.2 ∉ e.tx.vin := by
      intro hin
      obtain ⟨k', hk'⟩ := vin_mem_iff_get.1 hin
      have h1 := hwf.nextBwd e' he'm kp hkp
      have h2 := hwf.nextBwd e hemem (k', kp.2) (mem_vinRows_iff.2 hk')
      rw [h1] at h2
      have hts : e'.tx.txid = e.tx.txid := by
        have := congrArg (fun o => o.map Prod.fst) h2
        simpa using this
      have : e' = e := hwf.txid_inj he'm hemem hts
      exact he'ne (this ▸ hetx)
    show lookupA (eraseAllA s.mapNextTx e.tx.vin) kp.2 = _
    rw [lookupA_eraseAllA]
    simp only [hne, if_false]
    exact hwf.nextBwd e' he'm kp hkp
  · exact hwf.sproutWF.removeEntry hwf.nodup hf
  · exact hwf.saplingWF.removeEntry hwf.nodup hf
  · exact hwf.orchardWF.removeEntry hwf.nodup hf

theorem removeLoop_WF (fRecursive : Bool) (s : MemPool) (queue : List Nat)
    (removed : List Tx) :
    PoolWF s → PoolWF (removeLoop fRecursive s queue removed).1 := by
  induction s, queue, removed using removeLoop.induct fRecursive
  case case1 s removed => intro hwf; rw [removeLoop_nil]; exact hwf
  case case2 s removed h rest hfind ih =>
    intro hwf
    rw [removeLoop_cons_none _ _ _ _ _ hfind]
    exact ih hwf
  case case3 s removed h rest e hfind ih =>
    intro hwf
    rw [removeLoop_cons_some _ _ _ _ _ _ hfind]
    exact ih (hwf.preserved_by_removeEntryFrom hfind)

/-! ## Master specification of the recursive removal loop -/

theorem mem_consumersOf {m : List (OutPt × (Nat × Nat))} {h n q : Nat} :
    q ∈ consumersOf m h n ↔ ∃ i, i < n ∧ ∃ k, lookupA m (h, i) = some (q, k) := by
  unfold consumersOf
  simp only [List.mem_filterMap, List.mem_range]
  constructor
  · rintro ⟨i, hi, hmap⟩
    cases hl : lookupA m (h, i) with
    | none => rw [hl] at hmap; simp at hmap
    | some v =>
      rw [hl] at hmap
      cases v with
      | mk v1 v2 =>
        simp at hmap
        subst hmap
        exact ⟨i, hi, v2, hl⟩
  · rintro ⟨i, hi, k, hl⟩
    exact ⟨i, hi, by rw [hl]; rfl⟩

/-- Master specification of the recursive (`fRecursive = true`) removal
loop over a well-formed state.  If every queued hash resolves only to
entries satisfying `P` (or spending an output of an already-listed removed
transaction), then the loop appends to the out-list exactly the
transactions of the entries it erases; each erased entry satisfies `P` or
spends an output of some transaction of the final out-list, and its txid
is gone from the final entry set. -/
theorem removeLoop_master (s : MemPool) (queue : List Nat) (removed : List Tx)
    (P : Tx → Prop) :
    PoolWF s →
    (∀ q ∈ queue, ∀ e ∈ s.mapTx, e.tx.txid = q →
      P e.tx ∨ ∃ f ∈ removed, spendsOutputOf e.tx f) →
    ∃ δ, (removeLoop true s queue removed).2 = removed ++ δ ∧
      (∀ t ∈ δ, (∃ e ∈ s.mapTx, e.tx = t) ∧
        findTx (removeLoop true s queue removed).1.mapTx t.txid = none ∧
        (P t ∨ ∃ f ∈ (removeLoop true s queue removed).2, spendsOutputOf t f)) ∧
      (∀ e ∈ s.mapTx, e ∉ (removeLoop true s queue removed).1.mapTx → e.tx ∈ δ) := by
  induction s, queue, removed using removeLoop.induct true
  case case1 s removed =>
    intro _ _
    rw [removeLoop_nil]
    exact ⟨[], by simp, by simp, fun e he hne => absurd he hne⟩
  case case2 s removed h rest hfind ih =>
    intro hwf hseed
    rw [removeLoop_cons_none _ _ _ _ _ hfind]
    exact ih hwf (fun q hq => hseed q (List.mem_cons_of_mem h hq))
  case case3 s removed h rest e hfind ih =>
    intro hwf hseed
    rw [removeLoop_cons_some _ _ _ _ _ _ hfind, if_pos rfl]
    simp only [dite_eq_ite, if_pos] at ih
    have hwf1 : PoolWF (removeEntryFrom s h e) := hwf.preserved_by_removeEntryFrom hfind
    obtain ⟨hemem, hetx⟩ := findTx_mem hfind
    have hseed1 : ∀ q ∈ rest ++ consumersOf s.mapNextTx h e.tx.vout.length,
        ∀ e' ∈ (removeEntryFrom s h e).mapTx, e'.tx.txid = q →
          P e'.tx ∨ ∃ f ∈ removed ++ [e.tx], spendsOutputOf e'.tx f := by
      intro q hq e' he' htx
      have he's : e' ∈ s.mapTx := (mem_eraseTx.1 he').1
      rcases List.mem_append.1 hq with hq | hq
      · rcases hseed q (List.mem_cons_of_mem h hq) e' he's htx with hP | ⟨f, hf, hsp⟩
        · exact Or.inl hP
        · exact Or.inr ⟨f, List.mem_append_left _ hf, hsp⟩
      · obtain ⟨i, hi, k, hl⟩ := mem_consumersOf.1 hq
        have hrow := lookupA_mem hl
        obtain ⟨ec, hec, hectx, hget⟩ := hwf.nextFwd _ hrow
        have : e' = ec := hwf.txid_inj he's hec (htx.trans hectx.symm)
        subst this
        refine Or.inr ⟨e.tx, List.mem_append_right _ (List.mem_singleton.2 rfl),
          i, hi, ?_⟩
        rw [hetx]
        exact List.get?_mem hget
    obtain ⟨δ1, hδ1, hchar1, hgone1⟩ := ih hwf1 hseed1
    refine ⟨e.tx :: δ1, by rw [hδ1]; simp, ?_, ?_⟩
    · intro t ht
      rcases List.mem_cons.1 ht with rfl | ht
      · refine ⟨⟨e, hemem, rfl⟩, ?_, ?_⟩
        · refine (removeLoop_shrink _ _ _ _).findTx_none ?_
          show findTx (removeEntryFrom s h e).mapTx e.tx.txid = none
          rw [hetx]
          exact findTx_eraseTx_self s.mapTx h
        · rcases hseed h (List.mem_cons_self h rest) e hemem hetx with hP | ⟨f, hf, hsp⟩
          · exact Or.inl hP
          · refine Or.inr ⟨f, ?_, hsp⟩
            rw [hδ1]
            exact List.mem_append_left _ (List.mem_append_left _ hf)
      · obtain ⟨⟨e', he', heq⟩, hnone, hPf⟩ := hchar1 t ht
        exact ⟨⟨e', (mem_eraseTx.1 he').1, heq⟩, hnone, hPf⟩
    · intro e' he' hne
      by_cases hh : e'.tx.txid = h
      · have : e' = e := hwf.txid_inj he' hemem (hh.trans hetx.symm)
        subst this
        exact List.mem_cons_self _ _
      · have he'1 : e' ∈ (removeEntryFrom s h e).mapTx := mem_eraseTx.2 ⟨he', hh⟩
        exact List.mem_cons_of_mem _ (hgone1 e' he'1 hne)

/-! ## `remove`: top-level removal lemmas -/

theorem PoolShrink.tree_update {p q : MemPool} (h : PoolShrink p q)
    (t : List (Nat × (Nat × Int))) :
    PoolShrink { p with weightedTxTree := t } q :=
  ⟨h.mapTx_sub, h.next_sub, h.sprout_sub, h.sapling_sub, h.orchard_sub⟩

theorem poolWF_tree_update {p : MemPool} {t : List (Nat × (Nat × Int))} :
    PoolWF { p with weightedTxTree := t } ↔ PoolWF p := Iff.rfl

/-- The queue `remove` seeds the loop with. -/
def removeQueue (s : MemPool) (origTx : Tx) (fRecursive : Bool) : List Nat :=
  if fRecursive && (findTx s.mapTx origTx.txid).isNone then
    origTx.txid :: consumersOf s.mapNextTx origTx.txid origTx.vout.length
  else [origTx.txid]

theorem remove_eq (s : MemPool) (origTx : Tx) (removed : List Tx)
    (fRecursive : Bool) :
    remove s origTx removed fRecursive =
      (let r := removeLoop fRecursive s (removeQueue s origTx fRecursive) removed
       ({ r.1 with
          weightedTxTree := r.2.foldl (fun t u => eraseA t u.txid) r.1.weightedTxTree },
        r.2)) := rfl

theorem remove_queue_post (s : MemPool) (origTx : Tx) (removed : List Tx)
    (fRecursive : Bool) :
    findTx (remove s origTx removed fRecursive).1.mapTx origTx.txid = none := by
  rw [remove_eq]
  show findTx (removeLoop fRecursive s (removeQueue s origTx fRecursive) removed).1.mapTx
    origTx.txid = none
  apply removeLoop_queue_post
  unfold removeQueue
  split <;> simp

theorem remove_shrink (s : MemPool) (origTx : Tx) (removed : List Tx)
    (fRecursive : Bool) :
    PoolShrink (remove s origTx removed fRecursive).1 s := by
  rw [remove_eq]
  exact (removeLoop_shrink fRecursive s (removeQueue s origTx fRecursive)
    removed).tree_update _

theorem remove_WF (s : MemPool) (origTx : Tx) (removed : List Tx)
    (fRecursive : Bool) (hwf : PoolWF s) :
    PoolWF (remove s origTx removed fRecursive).1 := by
  rw [remove_eq]
  exact poolWF_tree_update.2
    (removeLoop_WF fRecursive s (removeQueue s origTx fRecursive) removed hwf)

/-- Master specification of `remove(origTx, removed, true)` over a
well-formed state: when every in-pool entry at `origTx`'s own txid
satisfies `P`, every erased entry satisfies `P`, spends an output of
`origTx` (the phantom-root expansion), or spends an output of a
transaction of the final out-list. -/
theorem remove_master (s : MemPool) (origTx : Tx) (removed : List Tx)
    (P : Tx → Prop) (hwf : PoolWF s)
    (hseed : ∀ e ∈ s.mapTx, e.tx.txid = origTx.txid → P e.tx) :
    PoolWF (remove s origTx removed true).1 ∧
    findTx (remove s origTx removed true).1.mapTx origTx.txid = none ∧
    ∃ δ, (remove s origTx removed true).2 = removed ++ δ ∧
      (∀ t ∈ δ, (∃ e ∈ s.mapTx, e.tx = t) ∧
        findTx (remove s origTx removed true).1.mapTx t.txid = none ∧
        (P t ∨ spendsOutputOf t origTx ∨
          ∃ f ∈ (remove s origTx removed true).2, spendsOutputOf t f)) ∧
      (∀ e ∈ s.mapTx, e ∉ (remove s origTx removed true).1.mapTx → e.tx ∈ δ) := by
  have hq : ∀ q ∈ removeQueue s origTx true, ∀ e ∈ s.mapTx, e.tx.txid = q →
      (fun t => P t ∨ spendsOutputOf t origTx) e.tx ∨
        ∃ f ∈ removed, spendsOutputOf e.tx f := by
    intro q hq e he htx
    unfold removeQueue at hq
    by_cases hc : (true && (findTx s.mapTx origTx.txid).isNone) = true
    · rw [if_pos hc] at hq
      rcases List.mem_cons.1 hq with rfl | hq
      · exact Or.inl (Or.inl (hseed e he htx))
      · obtain ⟨i, hi, k, hl⟩ := mem_consumersOf.1 hq
        obtain ⟨ec, hec, hectx, hget⟩ := hwf.nextFwd _ (lookupA_mem hl)
        have : e = ec := hwf.txid_inj he hec (htx.trans hectx.symm)
        subst this
        exact Or.inl (Or.inr ⟨i, hi, List.get?_mem hget⟩)
    · rw [if_neg hc] at hq
      rcases List.mem_cons.1 hq with rfl | hq
      · exact Or.inl (Or.inl (hseed e he htx))
      · simp at hq
  obtain ⟨δ, hδ, hchar, hgone⟩ :=
    removeLoop_master s (removeQueue s origTx true) removed
      (fun t => P t ∨ spendsOutputOf t origTx) hwf hq
  refine ⟨remove_WF s origTx removed true hwf,
    remove_queue_post s origTx removed true, δ, ?_, ?_, ?_⟩
  · rw [remove_eq]; exact hδ
  · intro t ht
    obtain ⟨hmem, hnone, hPf⟩ := hchar t ht
    refine ⟨hmem, ?_, ?_⟩
    · rw [remove_eq]; exact hnone
    · rcases hPf with (hP | hsp) | ⟨f, hf, hsp⟩
      · exact Or.inl hP
      · exact Or.inr (Or.inl hsp)
      · exact Or.inr (Or.inr ⟨f, by rw [remove_eq]; exact hf, hsp⟩)
  · intro e he hne
    refine hgone e he ?_
    rw [remove_eq] at hne
    exact hne

/-! ## Folding recursive removes over a scan list -/

theorem foldRemove_master (ts : List Tx) (s : MemPool) (P : Tx → Prop)
    (hwf : PoolWF s)
    (hts : ∀ t ∈ ts, ∀ e ∈ s.mapTx, e.tx.txid = t.txid → P e.tx) :
    PoolWF (ts.foldl (fun st t => (remove st t [] true).1) s) ∧
    PoolShrink (ts.foldl (fun st t => (remove st t [] true).1) s) s ∧
    (∀ t ∈ ts,
      findTx (ts.foldl (fun st t => (remove st t [] true).1) s).mapTx t.txid = none) ∧
    (∀ e ∈ s.mapTx, e ∉ (ts.foldl (fun st t => (remove st t [] true).1) s).mapTx →
      P e.tx ∨ (∃ u ∈ ts, spendsOutputOf e.tx u) ∨
      ∃ f ∈ s.mapTx, f ∉ (ts.foldl (fun st t => (remove st t [] true).1) s).mapTx ∧
        spendsOutputOf e.tx f.tx) := by
  induction ts generalizing s with
  | nil =>
    exact ⟨hwf, PoolShrink.rfl s, by simp, fun e he hne => absurd he hne⟩
  | cons t ts ih =>
    simp only [List.foldl_cons]
    obtain ⟨hwf1, hpost1, δ, hδ, hchar, hgone⟩ :=
      remove_master s t [] P hwf
        (fun e he htx => hts t (List.mem_cons_self t ts) e he htx)
    set s1 := (remove s t [] true).1 with hs1
    have hts1 : ∀ u ∈ ts, ∀ e ∈ s1.mapTx, e.tx.txid = u.txid → P e.tx :=
      fun u hu e he htx =>
        hts u (List.mem_cons_of_mem t hu) e ((remove_shrink s t [] true).mapTx_sub e he) htx
    obtain ⟨hwfF, hshrF, hpostF, hgoneF⟩ := ih s1 hwf1 hts1
    refine ⟨hwfF, hshrF.trans (remove_shrink s t [] true), ?_, ?_⟩
    · intro u hu
      rcases List.mem_cons.1 hu with rfl | hu
      · exact hshrF.findTx_none hpost1
      · exact hpostF u hu
    · intro e he hne
      by_cases he1 : e ∈ s1.mapTx
      · rcases hgoneF e he1 hne with hP | ⟨u, hu, hsp⟩ | ⟨f, hf, hfne, hsp⟩
        · exact Or.inl hP
        · exact Or.inr (Or.inl ⟨u, List.mem_cons_of_mem t hu, hsp⟩)
        · exact Or.inr (Or.inr ⟨f, (remove_shrink s t [] true).mapTx_sub f hf, hfne, hsp⟩)
      · have hδe : e.tx ∈ δ := hgone e he he1
        obtain ⟨_, hnone, hPf⟩ := hchar e.tx hδe
        rcases hPf with hP | hsp | ⟨f, hf, hsp⟩
        · exact Or.inl hP
        · exact Or.inr (Or.inl ⟨t, List.mem_cons_self t ts, hsp⟩)
        · rw [hδ] at hf
          simp only [List.nil_append] at hf
          obtain ⟨⟨ef, hefm, heftx⟩, hfnone, _⟩ := hchar f hf
          refine Or.inr (Or.inr ⟨ef, hefm, ?_, by rw [heftx]; exact hsp⟩)
          intro hefF
          have := hshrF.findTx_none hfnone
          rw [findTx_eq_none_iff] at this
          exact this ef hefF (by rw [heftx])

/-! ## Scan-then-remove sweeps -/

/-- Specification of the scan-then-remove pattern shared by
`removeWithAnchor` (sprout/sapling) and `removeExpired`: scanning `mapTx`
for the boolean predicate `pb` and recursively removing each hit leaves a
well-formed sub-state in which no entry satisfying `pb` survives, and
every erased entry satisfied `pb` or spent an output of another erased
entry. -/
theorem scanFoldRemove_spec (s : MemPool) (pb : Tx → Bool) (hwf : PoolWF s) :
    PoolWF ((s.mapTx.filterMap
        (fun e => if pb e.tx then some e.tx else none)).foldl
        (fun st t => (remove st t [] true).1) s) ∧
    (∀ e ∈ ((s.mapTx.filterMap
        (fun e => if pb e.tx then some e.tx else none)).foldl
        (fun st t => (remove st t [] true).1) s).mapTx, e ∈ s.mapTx) ∧
    (∀ t ∈ s.mapTx.filterMap (fun e => if pb e.tx then some e.tx else none),
      findTx ((s.mapTx.filterMap
        (fun e => if pb e.tx then some e.tx else none)).foldl
        (fun st t => (remove st t [] true).1) s).mapTx t.txid = none) ∧
    (∀ e ∈ s.mapTx, pb e.tx = true →
      findTx ((s.mapTx.filterMap
        (fun e => if pb e.tx then some e.tx else none)).foldl
        (fun st t => (remove st t [] true).1) s).mapTx e.tx.txid = none) ∧
    (∀ e ∈ s.mapTx, e ∉ ((s.mapTx.filterMap
        (fun e => if pb e.tx then some e.tx else none)).foldl
        (fun st t => (remove st t [] true).1) s).mapTx →
      pb e.tx = true ∨ ∃ f ∈ s.mapTx,
        f ∉ ((s.mapTx.filterMap
          (fun e => if pb e.tx then some e.tx else none)).foldl
          (fun st t => (remove st t [] true).1) s).mapTx ∧
        spendsOutputOf e.tx f.tx) := by
  have hmem : ∀ t ∈ s.mapTx.filterMap (fun e => if pb e.tx then some e.tx else none),
      ∃ e0 ∈ s.mapTx, pb e0.tx = true ∧ e0.tx = t := by
    intro t ht
    obtain ⟨e0, he0, heq⟩ := List.mem_filterMap.1 ht
    by_cases hp : pb e0.tx = true
    · rw [if_pos hp] at heq
      exact ⟨e0, he0, hp, Option.some.inj heq⟩
    · rw [if_neg hp] at heq
      simp at heq
  have hts : ∀ t ∈ s.mapTx.filterMap (fun e => if pb e.tx then some e.tx else none),
      ∀ e ∈ s.mapTx, e.tx.txid = t.txid → pb e.tx = true := by
    intro t ht e he htx
    obtain ⟨e0, he0, hp, heq⟩ := hmem t ht
    have : e = e0 := hwf.txid_inj he he0 (by rw [htx, ← heq])
    rw [this]
    exact hp
  obtain ⟨hwf', hshr, hpost, hgone⟩ :=
    foldRemove_master (s.mapTx.filterMap (fun e => if pb e.tx then some e.tx else none))
      s (fun u => pb u = true) hwf hts
  have hmatchpost : ∀ e ∈ s.mapTx, pb e.tx = true →
      findTx ((s.mapTx.filterMap
        (fun e => if pb e.tx then some e.tx else none)).foldl
        (fun st t => (remove st t [] true).1) s).mapTx e.tx.txid = none := by
    intro e he hp
    exact hpost e.tx (List.mem_filterMap.2 ⟨e, he, by rw [if_pos hp]⟩)
  refine ⟨hwf', hshr.mapTx_sub, hpost, hmatchpost, ?_⟩
  intro e he hne
  rcases hgone e he hne with hP | ⟨u, hu, hsp⟩ | ⟨f, hf, hfne, hsp⟩
  · exact Or.inl hP
  · obtain ⟨e0, he0, hp, heq⟩ := hmem u hu
    refine Or.inr ⟨e0, he0, ?_, by rw [heq]; exact hsp⟩
    intro hmemF
    have := hmatchpost e0 he0 hp
    rw [findTx_eq_none_iff] at this
    exact this e0 hmemF rfl
  · exact Or.inr ⟨f, hf, hfne, hsp⟩

theorem filterMap_if_eq {α β : Type} (l : List α) (p : α → Bool) (f : α → β) :
    l.filterMap (fun a => if p a then some (f a) else none) = (l.filter p).map f := by
  induction l with
  | nil => rfl
  | cons a l ih => by_cases hp : p a <;> simp [hp, ih]

/-! ## Claim C3: `removeWithAnchor` -/

/-- **C3** (amended).  For the SPROUT and SAPLING kinds,
`removeWithAnchor(invalid_root, kind)` succeeds, recursively removes every
entry having a shielded spend of that kind whose anchor equals
`invalid_root`, and any further entry it removes transitively spends an
output of a removed entry; entries matching neither condition stay.  For
the ORCHARD kind the `switch` has no case, so the scan loop throws
("Unknown shielded type") on the first entry: the call is fatal exactly
when the pool is non-empty. -/
theorem removeWithAnchor_spec (s : MemPool) (invalidRoot : Nat)
    (ty : ShieldedType) (hwf : PoolWF s) :
    (ty = ShieldedType.orchard →
      (removeWithAnchor s invalidRoot ty = none ↔ s.mapTx ≠ [])) ∧
    (ty ≠ ShieldedType.orchard →
      ∃ s', removeWithAnchor s invalidRoot ty = some s' ∧
        PoolWF s' ∧
        (∀ e ∈ s'.mapTx, e ∈ s.mapTx) ∧
        (∀ e ∈ s.mapTx, txMatchesAnchor e.tx invalidRoot ty = true →
          findTx s'.mapTx e.tx.txid = none) ∧
        (∀ e ∈ s.mapTx, e ∉ s'.mapTx →
          txMatchesAnchor e.tx invalidRoot ty = true ∨
          ∃ f ∈ s.mapTx, f ∉ s'.mapTx ∧ spendsOutputOf e.tx f.tx)) := by
  constructor
  · rintro rfl
    show (if s.mapTx.isEmpty then some s else none) = none ↔ s.mapTx ≠ []
    by_cases he : s.mapTx.isEmpty
    · rw [if_pos he]
      rw [List.isEmpty_iff] at he
      simp [he]
    · rw [if_neg he]
      rw [List.isEmpty_iff] at he
      simp [he]
  · intro hne
    obtain ⟨hwf', hsub, _, hpost, hgone⟩ :=
      scanFoldRemove_spec s (fun u => txMatchesAnchor u invalidRoot ty) hwf
    refine ⟨(s.mapTx.filterMap (fun e =>
        if txMatchesAnchor e.tx invalidRoot ty then some e.tx else none)).foldl
        (fun st t => (remove st t [] true).1) s, ?_, hwf', hsub, hpost, hgone⟩
    cases ty with
    | orchard => exact absurd rfl hne
    | sprout => rfl
    | sapling => rfl

/-- **C3** counterexample: the claim as stated supports the ORCHARD kind
(only an unknown kind should be fatal).  But on a pool whose single entry
spends an orchard nullifier and has no anchor equal to 9,
`removeWithAnchor(9, ORCHARD)` is fatal instead of leaving the entry in
place. -/
theorem removeWithAnchor_orchard_fatal :
    removeWithAnchor poolO 9 ShieldedType.orchard = none ∧ poolO.mapTx ≠ [] := by
  decide

/-- **C3** witness: the amended theorem applied to the concrete pool
`poolA`, whose well-formedness is decided. -/
theorem removeWithAnchor_spec_witness :
    PoolWF poolA ∧ removeWithAnchor poolA 5 ShieldedType.orchard = none :=
  ⟨by decide,
   ((removeWithAnchor_spec poolA 5 ShieldedType.orchard (by decide)).1 rfl).2
     (by decide)⟩

/-! ## Claim C9: `removeExpired` -/

/-- **C9** (amended).  `removeExpired(height)` removes every entry whose
transaction is expired at `height`, recursively removing in-pool
descendants of removed entries along the way; the vector it returns lists
the txids of the scanned expired transactions in iteration order — the
non-expired descendants it also removes are missing from it — and every
returned txid is gone from the pool. -/
theorem removeExpired_spec (s : MemPool) (nBlockHeight : Nat) (hwf : PoolWF s) :
    (removeExpired s nBlockHeight).2 =
      (s.mapTx.filter (fun e => IsExpiredTx e.tx nBlockHeight)).map
        (fun e => e.tx.txid) ∧
    PoolWF (removeExpired s nBlockHeight).1 ∧
    (∀ e ∈ (removeExpired s nBlockHeight).1.mapTx, e ∈ s.mapTx) ∧
    (∀ e ∈ s.mapTx, IsExpiredTx e.tx nBlockHeight = true →
      findTx (removeExpired s nBlockHeight).1.mapTx e.tx.txid = none) ∧
    (∀ id ∈ (removeExpired s nBlockHeight).2,
      findTx (removeExpired s nBlockHeight).1.mapTx id = none) ∧
    (∀ e ∈ s.mapTx, e ∉ (removeExpired s nBlockHeight).1.mapTx →
      IsExpiredTx e.tx nBlockHeight = true ∨
      ∃ f ∈ s.mapTx, f ∉ (removeExpired s nBlockHeight).1.mapTx ∧
        spendsOutputOf e.tx f.tx) := by
  obtain ⟨hwf', hsub, hscanpost, hpost, hgone⟩ :=
    scanFoldRemove_spec s (fun u => IsExpiredTx u nBlockHeight) hwf
  have hids : (removeExpired s nBlockHeight).2 =
      (s.mapTx.filter (fun e => IsExpiredTx e.tx nBlockHeight)).map
        (fun e => e.tx.txid) := by
    show (s.mapTx.filterMap
        (fun e => if IsExpiredTx e.tx nBlockHeight then some e.tx else none)).map
        (fun t => t.txid) = _
    rw [filterMap_if_eq s.mapTx (fun e => IsExpiredTx e.tx nBlockHeight)
      (fun e => e.tx)]
    rw [List.map_map]
    rfl
  refine ⟨hids, hwf', hsub, hpost, ?_, hgone⟩
  intro id hid
  rw [hids] at hid
  obtain ⟨e, he, heq⟩ := List.mem_map.1 hid
  have hef : IsExpiredTx e.tx nBlockHeight = true := (List.mem_filter.1 he).2
  rw [← heq]
  exact hpost e (List.mem_filter.1 he).1 hef

/-- **C9** counterexample: at height 10, on a pool holding the expired
`txE` (txid 4) and its non-expired child `txF` (txid 5), `removeExpired`
removes both transactions but the returned vector is `[4]`: it misses the
removed transaction `txF`. -/
theorem removeExpired_misses_descendant :
    (removeExpired poolEF 10).2 = [4] ∧
    entryF ∈ poolEF.mapTx ∧
    IsExpiredTx txF 10 = false ∧
    findTx (removeExpired poolEF 10).1.mapTx 5 = none := by
  refine ⟨by decide, by decide, by decide, ?_⟩
  show findTx ((poolEF.mapTx.filterMap
      (fun e => if IsExpiredTx e.tx 10 then some e.tx else none)).foldl
      (fun st t => (remove st t [] true).1) poolEF).mapTx 5 = none
  have hscan : poolEF.mapTx.filterMap
      (fun e => if IsExpiredTx e.tx 10 then some e.tx else none) = [txE] := by
    decide
  rw [hscan]
  show findTx (remove poolEF txE [] true).1.mapTx 5 = none
  show findTx (removeLoop true poolEF (removeQueue poolEF txE true) []).1.mapTx 5 = none
  have hq : removeQueue poolEF txE true = [4] := by decide
  rw [hq]
  rw [removeLoop_cons_some true poolEF 4 [] [] entryE (by decide)]
  exact removeLoop_queue_post true (removeEntryFrom poolEF 4 entryE) _ _ 5 (by decide)

/-- **C9** witness: the amended theorem applied to the concrete pool
`poolEF` at height 10. -/
theorem removeExpired_spec_witness :
    PoolWF poolEF ∧ (removeExpired poolEF 10).2 = [4] :=
  ⟨by decide, by rw [(removeExpired_spec poolEF 10 (by decide)).1]; decide⟩

/-! ## Claim C1: `clear` and the global invariants -/

/-- **C1** (the code violates the claim).  Admit, via `addUnchecked`, a
transaction with a sprout nullifier (21) and an orchard nullifier (22),
then call `clear()`.  `_clear()` only resets `mapTx`, `mapNextTx` and the
two counters, so the resulting state has an empty entry set while the
sprout and orchard nullifier maps still map 21 and 22 to the departed
entry, the weighted tree still holds its node, and `mapRecentlyAddedTx`
still lists it — violating invariants 3 and 7 of the data model; the
pool's own `checkNullifiers(SPROUT)` audit fails on this state. -/
theorem clear_leaves_stale_state :
    (clearPool poolS).mapTx = [] ∧
    (clearPool poolS).mapNextTx = [] ∧
    (clearPool poolS).totalTxSize = 0 ∧
    (clearPool poolS).cachedInnerUsage = 0 ∧
    (clearPool poolS).mapSproutNullifiers = [(21, 6)] ∧
    (clearPool poolS).mapOrchardNullifiers = [(22, 6)] ∧
    (clearPool poolS).weightedTxTree = [(6, (90, 7))] ∧
    (clearPool poolS).mapRecentlyAddedTx = [6] ∧
    checkNullifiers (clearPool poolS) ShieldedType.sprout = false := by
  decide

/-! ## Claim C4: the Checker's nullifier audit -/

/-- **C4** (the code violates the claim).  `check` calls
`checkNullifiers(SPROUT)` and `checkNullifiers(SAPLING)` only.  On the
state reached by admitting an orchard-spending transaction and then
calling `clear()`, the orchard map still holds a row for the departed
entry: the audited portion of `check` passes even though the very same
`checkNullifiers` audit applied to the orchard map fails. -/
theorem check_skips_orchard_map :
    checkNullifierMapsInCheck (clearPool poolO) = true ∧
    checkNullifiers (clearPool poolO) ShieldedType.orchard = false ∧
    (clearPool poolO).mapOrchardNullifiers = [(31, 7)] ∧
    (clearPool poolO).mapTx = [] := by
  decide

/-! ## Shrinking through `removeConflicts` and `removeForBlock` -/

theorem PoolShrink.clearPrioritisation (s : MemPool) (h : Nat) :
    PoolShrink (clearPrioritisation s h) s :=
  ⟨fun _ he => he, fun _ _ hv => hv, fun _ _ hv => hv, fun _ _ hv => hv,
   fun _ _ hv => hv⟩

theorem conflictStepNext_shrink (tx : Tx) (sr : MemPool × List Tx) (p : OutPt) :
    PoolShrink (conflictStepNext tx sr p).1 sr.1 := by
  unfold conflictStepNext
  split
  · exact PoolShrink.rfl _
  · split
    · exact PoolShrink.rfl _
    · split
      · exact remove_shrink _ _ _ _
      · exact PoolShrink.rfl _

theorem conflictStepNf_shrink (read : MemPool → List (Nat × Nat)) (tx : Tx)
    (sr : MemPool × List Tx) (nf : Nat) :
    PoolShrink (conflictStepNf read tx sr nf).1 sr.1 := by
  unfold conflictStepNf
  split
  · exact PoolShrink.rfl _
  · split
    · exact PoolShrink.rfl _
    · split
      · exact remove_shrink _ _ _ _
      · exact PoolShrink.rfl _

theorem foldl_shrink {α : Type} (step : (MemPool × List Tx) → α → MemPool × List Tx)
    (hstep : ∀ sr a, PoolShrink (step sr a).1 sr.1) (l : List α)
    (init : MemPool × List Tx) :
    PoolShrink (l.foldl step init).1 init.1 := by
  induction l generalizing init with
  | nil => exact PoolShrink.rfl _
  | cons a l ih => exact (ih (step init a)).trans (hstep init a)

theorem removeConflicts_shrink (s : MemPool) (tx : Tx) (removed : List Tx) :
    PoolShrink (removeConflicts s tx removed).1 s := by
  unfold removeConflicts
  refine (foldl_shrink _ (conflictStepNf_shrink _ tx) _ _).trans
    ((foldl_shrink _ (conflictStepNf_shrink _ tx) _ _).trans
      ((foldl_shrink _ (conflictStepNf_shrink _ tx) _ _).trans
        (foldl_shrink _ (conflictStepNext_shrink tx) _ _)))

/-! ## Claim C5: `removeForBlock` -/

theorem blockStep_shrink (acc : MemPool × List Tx) (t : Tx) :
    PoolShrink (clearPrioritisation
      (removeConflicts (remove acc.1 t [] false).1 t acc.2).1 t.txid)
      acc.1 :=
  (PoolShrink.clearPrioritisation _ _).trans
    ((removeConflicts_shrink _ _ _).trans (remove_shrink _ _ _ _))

theorem removeForBlock_fold_post (vtx : List Tx) (init : MemPool × List Tx) :
    ∀ t ∈ vtx, findTx (vtx.foldl (fun (acc : MemPool × List Tx) t =>
      (clearPrioritisation (removeConflicts (remove acc.1 t [] false).1 t acc.2).1
        t.txid,
       (removeConflicts (remove acc.1 t [] false).1 t acc.2).2)) init).1.mapTx
      t.txid = none := by
  induction vtx generalizing init with
  | nil => simp
  | cons t rest ih =>
    intro u hu
    rw [List.foldl_cons]
    rcases List.mem_cons.1 hu with rfl | hu
    · have hfold := foldl_shrink (fun (acc : MemPool × List Tx) t =>
        (clearPrioritisation (removeConflicts (remove acc.1 t [] false).1 t acc.2).1
          t.txid,
         (removeConflicts (remove acc.1 t [] false).1 t acc.2).2))
        (fun sr a => blockStep_shrink sr a) rest
        (clearPrioritisation (removeConflicts (remove init.1 u [] false).1 u init.2).1
          u.txid,
         (removeConflicts (remove init.1 u [] false).1 u init.2).2)
      refine hfold.findTx_none ?_
      show findTx (clearPrioritisation
        (removeConflicts (remove init.1 u [] false).1 u init.2).1 u.txid).mapTx
        u.txid = none
      refine (PoolShrink.clearPrioritisation _ _).findTx_none ?_
      refine (removeConflicts_shrink _ _ _).findTx_none ?_
      exact remove_queue_post init.1 u [] false
    · exact ih _ u hu

/-- **C5**.  `removeForBlock` captures the snapshot of pool entries for the
block's transactions from the pre-removal state, then processes each block
transaction (non-recursive remove, then `removeConflicts`, then
`ClearPrioritisation`), and the estimator's `processBlock` receives that
pre-removal snapshot: the snapshot equals the lookups in the initial
state, every block transaction is gone from the surviving pool, and
re-computing the snapshot from the surviving pool would yield the empty
list instead. -/
theorem removeForBlock_snapshot_spec (s : MemPool) (vtx : List Tx)
    (conflicts : List Tx) :
    (removeForBlock s vtx conflicts).2.2 =
      vtx.filterMap (fun t => findTx s.mapTx t.txid) ∧
    (∀ t ∈ vtx, findTx (removeForBlock s vtx conflicts).1.mapTx t.txid = none) ∧
    vtx.filterMap
      (fun t => findTx (removeForBlock s vtx conflicts).1.mapTx t.txid) = [] := by
  refine ⟨rfl, ?_, ?_⟩
  · intro t ht
    exact removeForBlock_fold_post vtx (s, conflicts) t ht
  · rw [List.filterMap_eq_nil_iff]
    intro t ht
    exact removeForBlock_fold_post vtx (s, conflicts) t ht

/-- **C5** witness: the theorem applied to the concrete pool `poolAB` and
the block `[txA]`. -/
theorem removeForBlock_snapshot_spec_witness :
    (removeForBlock poolAB [txA] []).2.2 = [entryA] := by
  rw [(removeForBlock_snapshot_spec poolAB [txA] []).1]
  decide

/-! ## Claim C6: idempotence of `remove` -/

theorem foldl_erase_eq_eraseAllA (l : List Tx) (t : List (Nat × (Nat × Int))) :
    l.foldl (fun t u => eraseA t u.txid) t = eraseAllA t (l.map (·.txid)) := by
  induction l generalizing t with
  | nil => rfl
  | cons a l ih =>
    rw [List.foldl_cons, List.map_cons]
    show _ = eraseAllA (eraseA t a.txid) (l.map (·.txid))
    exact ih (eraseA t a.txid)

/-- **C6**.  `remove(origTx, out, recursive)` is idempotent: a second
application on the resulting state (with the accumulated out-list) returns
the state and the out-list unchanged — in particular it appends no
transaction — and `remove` of an absent txid is a no-op on the entry set.
The hypothesis states that txids determine transactions (`GetHash` is a
content hash): any pool entry carrying `origTx`'s txid carries `origTx`. -/
theorem remove_idempotent (s : MemPool) (origTx : Tx) (removed : List Tx)
    (fRecursive : Bool)
    (hinj : ∀ e ∈ s.mapTx, e.tx.txid = origTx.txid → e.tx = origTx) :
    remove (remove s origTx removed fRecursive).1 origTx
      (remove s origTx removed fRecursive).2 fRecursive =
      remove s origTx removed fRecursive := by
  set r1 := remove s origTx removed fRecursive with hr1
  -- every hash the second call queues is gone from r1's entry set
  have habs : ∀ q ∈ removeQueue r1.1 origTx fRecursive,
      findTx r1.1.mapTx q = none := by
    intro q hq
    unfold removeQueue at hq
    by_cases hrec : fRecursive = true
    · subst hrec
      have hhead : findTx r1.1.mapTx origTx.txid = none :=
        remove_queue_post s origTx removed true
      rw [hhead] at hq
      simp only [Bool.and_true, Option.isNone_none, if_pos] at hq
      rcases List.mem_cons.1 hq with rfl | hq
      · exact hhead
      · -- q is a phantom child found in r1's mapNextTx
        obtain ⟨i, hi, k, hl1⟩ := mem_consumersOf.1 hq
        have hl0 : lookupA s.mapNextTx (origTx.txid, i) = some (q, k) :=
          (remove_shrink s origTx removed true).next_sub _ _ hl1
        cases hfound : findTx s.mapTx origTx.txid with
        | none =>
          -- first call did the same phantom expansion
          have hmem : q ∈ removeQueue s origTx true := by
            unfold removeQueue
            rw [hfound]
            simp only [Option.isNone_none, Bool.and_true, if_pos]
            exact List.mem_cons_of_mem _ (mem_consumersOf.2 ⟨i, hi, k, hl0⟩)
          have := removeLoop_queue_post true s (removeQueue s origTx true) removed
            q hmem
          rw [hr1, remove_eq]
          exact this
        | some e =>
          -- first call popped origTx itself and enqueued its consumers
          have hetx : e.tx = origTx := hinj e (findTx_mem hfound).1 (findTx_mem hfound).2
          have hqueue : removeQueue s origTx true = [origTx.txid] := by
            unfold removeQueue
            rw [hfound]
            simp
          rw [hr1, remove_eq]
          show findTx (removeLoop true s (removeQueue s origTx true) removed).1.mapTx
            q = none
          rw [hqueue,
            removeLoop_cons_some true s origTx.txid [] removed e hfound]
          refine removeLoop_queue_post true _ _ _ q ?_
          rw [if_pos rfl, List.nil_append]
          refine mem_consumersOf.2 ⟨i, ?_, k, hl0⟩
          rw [hetx]
          exact hi
    · have hrec' : fRecursive = false := by
        cases fRecursive
        · rfl
        · exact absurd rfl hrec
      subst hrec'
      simp only [Bool.false_and, if_neg] at hq
      simp only [Bool.false_eq_true, if_false] at hq
      rcases List.mem_cons.1 hq with rfl | hq
      · exact remove_queue_post s origTx removed false
      · simp at hq
  -- the second call's loop is a no-op
  have hloop : removeLoop fRecursive r1.1 (removeQueue r1.1 origTx fRecursive)
      r1.2 = (r1.1, r1.2) :=
    removeLoop_noop fRecursive r1.1 _ r1.2 habs
  -- the second call's tree erasures hit only already-erased keys
  have htree : r1.2.foldl (fun t u => eraseA t u.txid) r1.1.weightedTxTree =
      r1.1.weightedTxTree := by
    have h1 : r1.1.weightedTxTree =
        eraseAllA (removeLoop fRecursive s (removeQueue s origTx fRecursive)
          removed).1.weightedTxTree (r1.2.map (·.txid)) := by
      rw [hr1, remove_eq]
      exact foldl_erase_eq_eraseAllA _ _
    rw [foldl_erase_eq_eraseAllA, h1, eraseAllA_idem]
  rw [remove_eq r1.1 origTx r1.2 fRecursive]
  simp only [hloop]
  rw [htree]

/-- **C6** witness: the theorem applied to the concrete pool `poolAB` and
the transaction `txA`, with the txid-injectivity hypothesis decided. -/
theorem remove_idempotent_witness :
    (∀ e ∈ poolAB.mapTx, e.tx.txid = txA.txid → e.tx = txA) ∧
    remove (remove poolAB txA [] true).1 txA (remove poolAB txA [] true).2 true =
      remove poolAB txA [] true :=
  ⟨by decide, remove_idempotent poolAB txA [] true (by decide)⟩

/-! ## Claim C7: the coin-view overlay -/

/-- **C7**.  `CCoinsViewMemPool::GetCoins`: when the pool holds `txid`, the
result is the coins synthesized from the pool transaction at the
`MEMPOOL_HEIGHT` sentinel, whatever the base view contains; when the pool
does not hold `txid`, the call returns exactly the base view's coins when
they exist and are not pruned, and fails otherwise. -/
theorem getCoins_overlay_spec (s : MemPool) (base : List (Nat × CCoins))
    (txid : Nat) :
    (∀ t, poolGet s txid = some t →
      ∀ base', mempoolGetCoins s base' txid = some (coinsOfTx t MEMPOOL_HEIGHT)) ∧
    (poolGet s txid = none →
      ∀ c, mempoolGetCoins s base txid = some c ↔
        (lookupA base txid = some c ∧ c.isPruned = false)) := by
  constructor
  · intro t ht base'
    unfold mempoolGetCoins
    rw [ht]
  · intro hn c
    unfold mempoolGetCoins
    rw [hn]
    cases hb : lookupA base txid with
    | none => simp
    | some c' =>
      show (if c'.isPruned = true then none else some c') = some c ↔
        (some c' = some c ∧ c.isPruned = false)
      by_cases hp : c'.isPruned = true
      · rw [if_pos hp]
        constructor
        · intro h
          cases h
        · rintro ⟨hc, hpr⟩
          cases Option.some.inj hc
          rw [hp] at hpr
          cases hpr
      · rw [if_neg hp]
        constructor
        · intro h
          cases Option.some.inj h
          exact ⟨rfl, Bool.eq_false_iff.2 hp⟩
        · rintro ⟨hc, _⟩
          exact hc

/-- **C7** witness: the theorem applied to the concrete pool `poolA`
(which holds txid 1) and an empty base view. -/
theorem getCoins_overlay_spec_witness :
    mempoolGetCoins poolA [] 1 = some (coinsOfTx txA MEMPOOL_HEIGHT) :=
  (getCoins_overlay_spec poolA [] 1).1 txA (by decide) []


/-! ## Claim C8: prioritise and add commute -/

theorem lookupA_map_replace_self {K V : Type} [DecidableEq K]
    (m : List (K × V)) (k : K) (v : V)
    (hf : (m.find? (fun p => p.1 = k)).isSome = true) :
    lookupA (m.map (fun p => if p.1 = k then (k, v) else p)) k = some v := by
  induction m with
  | nil => simp at hf
  | cons p m ih =>
    rw [List.map_cons, lookupA_cons]
    by_cases hpk : p.1 = k
    · rw [if_pos hpk]
      simp
    · rw [if_neg hpk]
      simp only [hpk, if_false]
      apply ih
      rw [List.find?_cons] at hf
      simpa [hpk] using hf

theorem lookupA_map_replace_ne {K V : Type} [DecidableEq K]
    (m : List (K × V)) {k k' : K} (v : V) (h : k' ≠ k) :
    lookupA (m.map (fun p => if p.1 = k then (k, v) else p)) k' = lookupA m k' := by
  induction m with
  | nil => rfl
  | cons p m ih =>
    rw [List.map_cons, lookupA_cons, lookupA_cons]
    by_cases hpk : p.1 = k
    · rw [if_pos hpk]
      have h1 : ¬ (k = k') := fun hh => h hh.symm
      have h2 : ¬ (p.1 = k') := by rw [hpk]; exact h1
      simp only [h1, if_false, h2, if_false]
      exact ih
    · rw [if_neg hpk]
      by_cases hpk' : p.1 = k'
      · simp [hpk']
      · simp only [hpk', if_false]
        exact ih

theorem lookupA_append {K V : Type} [DecidableEq K] (m1 m2 : List (K × V))
    (k : K) :
    lookupA (m1 ++ m2) k =
      match lookupA m1 k with
      | some v => some v
      | none => lookupA m2 k := by
  induction m1 with
  | nil => simp [lookupA]
  | cons p m1 ih =>
    rw [List.cons_append, lookupA_cons, lookupA_cons]
    by_cases hpk : p.1 = k
    · simp [hpk]
    · simp only [hpk, if_false]
      exact ih

theorem lookupA_insertA_self {K V : Type} [DecidableEq K] (m : List (K × V))
    (k : K) (v : V) :
    lookupA (insertA m k v) k = some v := by
  unfold insertA
  split
  next hf => exact lookupA_map_replace_self m k v hf
  next hf =>
    rw [lookupA_append]
    have hnone : lookupA m k = none := by
      unfold lookupA
      cases hfind : m.find? (fun p => p.1 = k)
      · rfl
      · rw [hfind] at hf
        simp at hf
    rw [hnone]
    simp [lookupA_cons]

theorem lookupA_insertA_ne {K V : Type} [DecidableEq K] (m : List (K × V))
    {k k' : K} (v : V) (h : k' ≠ k) :
    lookupA (insertA m k v) k' = lookupA m k' := by
  unfold insertA
  split
  next => exact lookupA_map_replace_ne m v h
  next =>
    rw [lookupA_append]
    cases hm : lookupA m k' with
    | some w => rfl
    | none =>
      show lookupA [(k, v)] k' = none
      rw [lookupA_eq_none_iff]
      intro p hp
      rw [List.mem_singleton] at hp
      rw [hp]
      exact fun hh => h hh.symm

theorem findTx_append (l1 l2 : List Entry) (h : Nat) :
    findTx (l1 ++ l2) h =
      match findTx l1 h with
      | some e => some e
      | none => findTx l2 h := by
  induction l1 with
  | nil => simp [findTx]
  | cons a l1 ih =>
    rw [List.cons_append, findTx_cons, findTx_cons]
    by_cases ha : a.tx.txid = h
    · simp [ha]
    · simp only [ha, if_false]
      exact ih

theorem map_eq_self_of_fix {α : Type} (l : List α) (f : α → α)
    (hf : ∀ a ∈ l, f a = a) : l.map f = l := by
  induction l with
  | nil => rfl
  | cons a l ih =>
    rw [List.map_cons, hf a (List.mem_cons_self a l),
      ih (fun a ha => hf a (List.mem_cons_of_mem _ ha))]

theorem findTx_modifyFeeDelta (l : List Entry) (h : Nat) (d : Int) :
    findTx (modifyFeeDelta l h d) h =
      (findTx l h).map (fun e => { e with feeDelta := d }) := by
  induction l with
  | nil => rfl
  | cons a l ih =>
    show findTx ((if a.tx.txid = h then { a with feeDelta := d } else a) ::
      modifyFeeDelta l h d) h = _
    rw [findTx_cons, findTx_cons]
    by_cases ha : a.tx.txid = h
    · rw [if_pos ha]
      simp only [ha, if_true]
      rfl
    · rw [if_neg ha]
      simp only [ha, if_false]
      exact ih

/-- **C8**.  `PrioritiseTransaction(h, _, dp, df)` followed by
`addUnchecked(h, e)` produces exactly the same pool state as
`addUnchecked(h, e)` followed by `PrioritiseTransaction(h, _, dp, df)`
(starting from a state without `h` and without a prior delta for `h`),
and the resulting entry's ranking score is computed from the effective fee
`fee + df`. -/
theorem prioritise_add_commute (s : MemPool) (h : Nat) (dp df : Int)
    (e : Entry) (he : e.tx.txid = h) (he0 : e.feeDelta = 0)
    (habs : findTx s.mapTx h = none) (hd : lookupA s.mapDeltas h = none) :
    addUnchecked (prioritiseTransaction s h dp df) h e =
      prioritiseTransaction (addUnchecked s h e) h dp df ∧
    ∃ e', findTx (addUnchecked (prioritiseTransaction s h dp df) h e).mapTx h
        = some e' ∧ e'.effectiveFee = e.fee + df := by
  have hft : findTx s.mapTx e.tx.txid = none := by rw [he]; exact habs
  have hfind2 : findTx (s.mapTx ++ [e]) h = some e := by
    rw [findTx_append, habs]
    show findTx [e] h = some e
    rw [findTx_cons, if_pos he]
  have hsp : prioritiseTransaction s h dp df =
      { s with mapDeltas := insertA s.mapDeltas h (dp, df) } := by
    unfold prioritiseTransaction
    rw [hd, habs]
    simp
  have hmodid : modifyFeeDelta (s.mapTx ++ [e]) h 0 = s.mapTx ++ [e] := by
    unfold modifyFeeDelta
    apply map_eq_self_of_fix
    intro x hx
    rcases List.mem_append.1 hx with hx | hx
    · rw [if_neg (findTx_eq_none_iff.1 habs x hx)]
    · rw [List.mem_singleton] at hx
      subst hx
      rw [if_pos he, ← he0]
  constructor
  · rw [hsp]
    simp only [addUnchecked, insertTxSet, prioritiseTransaction, hft, hd,
      lookupA_insertA_self, hfind2, Option.getD, habs, Option.isSome]
    by_cases hdf : df = 0
    · subst hdf
      simp [hmodid]
    · simp only [ne_eq, hdf, not_false_eq_true, if_true, zero_add, if_neg,
        reduceCtorEq, reduceIte]
      rw [he]
  · rw [hsp]
    simp only [addUnchecked, insertTxSet, hft, lookupA_insertA_self]
    by_cases hdf : df = 0
    · subst hdf
      simp only [ne_eq, not_true_eq_false, if_false, reduceIte]
      exact ⟨e, hfind2, by simp [Entry.effectiveFee, he0]⟩
    · simp only [ne_eq, hdf, not_false_eq_true, if_true, reduceIte]
      refine ⟨{ e with feeDelta := df }, ?_, by simp [Entry.effectiveFee]⟩
      rw [he, findTx_modifyFeeDelta, hfind2]
      rfl

/-- **C8** witness: the theorem applied to the empty pool, txid 1, fee
delta 1000 and the concrete entry `entryA`. -/
theorem prioritise_add_commute_witness :
    addUnchecked (prioritiseTransaction emptyPool 1 2 1000) 1 entryA =
      prioritiseTransaction (addUnchecked emptyPool 1 entryA) 1 2 1000 :=
  (prioritise_add_commute emptyPool 1 2 1000 entryA (by decide) (by decide)
    (by decide) (by decide)).1

/-! ## Claim C10: `CompareDepthAndScore` -/

theorem findTx_map_tx_preserving {l : List Entry} {g : Entry → Entry}
    (hg : ∀ e, (g e).tx = e.tx) (h : Nat) :
    findTx (l.map g) h = (findTx l h).map g := by
  induction l with
  | nil => rfl
  | cons a l ih =>
    rw [List.map_cons, findTx_cons, findTx_cons]
    by_cases ha : a.tx.txid = h
    · rw [if_pos (by rw [hg]; exact ha), if_pos ha]
      rfl
    · rw [if_neg (by rw [hg]; exact ha), if_neg ha]
      exact ih

/-- **C10**.  `CompareDepthAndScore(a, b)` is `false` whenever `a` is not
in the pool, `true` whenever `a` is in the pool and `b` is not, and
otherwise equals the score comparison of the two entries; depth is never
consulted — the result is invariant under arbitrary modification of every
entry's admission height. -/
theorem compareDepthAndScore_spec (s : MemPool) (a b : Nat) :
    ((∀ e ∈ s.mapTx, e.tx.txid ≠ a) → CompareDepthAndScore s a b = false) ∧
    ((∃ e ∈ s.mapTx, e.tx.txid = a) → (∀ e ∈ s.mapTx, e.tx.txid ≠ b) →
      CompareDepthAndScore s a b = true) ∧
    (∀ ea eb, findTx s.mapTx a = some ea → findTx s.mapTx b = some eb →
      CompareDepthAndScore s a b = scoreCompare ea eb) ∧
    (∀ f : Nat → Nat,
      CompareDepthAndScore
        { s with mapTx :=
            s.mapTx.map (fun e => { e with entryHeight := f e.entryHeight }) }
        a b = CompareDepthAndScore s a b) := by
  refine ⟨?_, ?_, ?_, ?_⟩
  · intro hnone
    unfold CompareDepthAndScore
    rw [findTx_eq_none_iff.2 hnone]
  · rintro ⟨e, he, hea⟩ hbnone
    unfold CompareDepthAndScore
    obtain ⟨e', he', _⟩ := findTx_of_mem he hea
    rw [he', findTx_eq_none_iff.2 hbnone]
  · intro ea eb hfa hfb
    unfold CompareDepthAndScore
    rw [hfa, hfb]
  · intro f
    unfold CompareDepthAndScore
    have hg : ∀ e : Entry, (({ e with entryHeight := f e.entryHeight } : Entry)).tx = e.tx :=
      fun e => rfl
    show (match findTx (s.mapTx.map
        (fun e : Entry => { e with entryHeight := f e.entryHeight })) a with
      | none => false
      | some i => match findTx (s.mapTx.map
          (fun e : Entry => { e with entryHeight := f e.entryHeight })) b with
        | none => true
        | some j => scoreCompare i j) = _
    rw [findTx_map_tx_preserving hg, findTx_map_tx_preserving hg]
    cases findTx s.mapTx a with
    | none => rfl
    | some ea =>
      cases findTx s.mapTx b with
      | none => rfl
      | some eb => rfl

/-- **C10** witness: the theorem applied to `poolAB` and its two resident
txids: both present, so the comparison is by score. -/
theorem compareDepthAndScore_spec_witness :
    CompareDepthAndScore poolAB 1 2 = scoreCompare entryA entryB :=
  (compareDepthAndScore_spec poolAB 1 2).2.2.1 entryA entryB (by decide) (by decide)

/-! ## Claim C2: `removeConflicts` -/

theorem PoolShrink.next_none {s' s : MemPool} (hs : PoolShrink s' s) {p : OutPt}
    (h : lookupA s.mapNextTx p = none) : lookupA s'.mapNextTx p = none := by
  cases hl : lookupA s'.mapNextTx p with
  | none => rfl
  | some v => rw [hs.next_sub p v hl] at h; cases h

theorem PoolShrink.sprout_none {s' s : MemPool} (hs : PoolShrink s' s) {nf : Nat}
    (h : lookupA s.mapSproutNullifiers nf = none) :
    lookupA s'.mapSproutNullifiers nf = none := by
  cases hl : lookupA s'.mapSproutNullifiers nf with
  | none => rfl
  | some v => rw [hs.sprout_sub nf v hl] at h; cases h

theorem PoolShrink.sapling_none {s' s : MemPool} (hs : PoolShrink s' s) {nf : Nat}
    (h : lookupA s.mapSaplingNullifiers nf = none) :
    lookupA s'.mapSaplingNullifiers nf = none := by
  cases hl : lookupA s'.mapSaplingNullifiers nf with
  | none => rfl
  | some v => rw [hs.sapling_sub nf v hl] at h; cases h

theorem PoolShrink.orchard_none {s' s : MemPool} (hs : PoolShrink s' s) {nf : Nat}
    (h : lookupA s.mapOrchardNullifiers nf = none) :
    lookupA s'.mapOrchardNullifiers nf = none := by
  cases hl : lookupA s'.mapOrchardNullifiers nf with
  | none => rfl
  | some v => rw [hs.orchard_sub nf v hl] at h; cases h

/-- The queue `remove` builds for a present root is just that root. -/
theorem removeQueue_of_found {s : MemPool} {origTx : Tx} {e : Entry}
    (hfind : findTx s.mapTx origTx.txid = some e) (fRecursive : Bool) :
    removeQueue s origTx fRecursive = [origTx.txid] := by
  unfold removeQueue
  rw [hfind]
  simp

/-- Recursively removing a present entry erases the `mapNextTx` rows of
its inputs for good. -/
theorem remove_lookup_next_none (s : MemPool) (e : Entry) (removed : List Tx)
    (hfind : findTx s.mapTx e.tx.txid = some e) {p : OutPt}
    (hp : p ∈ e.tx.vin) :
    lookupA (remove s e.tx removed true).1.mapNextTx p = none := by
  rw [remove_eq]
  show lookupA (removeLoop true s (removeQueue s e.tx true) removed).1.mapNextTx
    p = none
  rw [removeQueue_of_found hfind true,
    removeLoop_cons_some true s e.tx.txid [] removed e hfind]
  refine (removeLoop_shrink _ _ _ _).next_none ?_
  show lookupA (eraseAllA s.mapNextTx e.tx.vin) p = none
  rw [lookupA_eraseAllA]
  simp [hp]

theorem remove_lookup_sprout_none (s : MemPool) (e : Entry) (removed : List Tx)
    (hfind : findTx s.mapTx e.tx.txid = some e) {nf : Nat}
    (hp : nf ∈ sproutNfs e.tx) :
    lookupA (remove s e.tx removed true).1.mapSproutNullifiers nf = none := by
  rw [remove_eq]
  show lookupA (removeLoop true s (removeQueue s e.tx true)
    removed).1.mapSproutNullifiers nf = none
  rw [removeQueue_of_found hfind true,
    removeLoop_cons_some true s e.tx.txid [] removed e hfind]
  refine (removeLoop_shrink _ _ _ _).sprout_none ?_
  show lookupA (eraseAllA s.mapSproutNullifiers (sproutNfs e.tx)) nf = none
  rw [lookupA_eraseAllA]
  simp [hp]

theorem remove_lookup_sapling_none (s : MemPool) (e : Entry) (removed : List Tx)
    (hfind : findTx s.mapTx e.tx.txid = some e) {nf : Nat}
    (hp : nf ∈ saplingNfs e.tx) :
    lookupA (remove s e.tx removed true).1.mapSaplingNullifiers nf = none := by
  rw [remove_eq]
  show lookupA (removeLoop true s (removeQueue s e.tx true)
    removed).1.mapSaplingNullifiers nf = none
  rw [removeQueue_of_found hfind true,
    removeLoop_cons_some true s e.tx.txid [] removed e hfind]
  refine (removeLoop_shrink _ _ _ _).sapling_none ?_
  show lookupA (eraseAllA s.mapSaplingNullifiers (saplingNfs e.tx)) nf = none
  rw [lookupA_eraseAllA]
  simp [hp]

theorem remove_lookup_orchard_none (s : MemPool) (e : Entry) (removed : List Tx)
    (hfind : findTx s.mapTx e.tx.txid = some e) {nf : Nat}
    (hp : nf ∈ orchardNfs e.tx) :
    lookupA (remove s e.tx removed true).1.mapOrchardNullifiers nf = none := by
  rw [remove_eq]
  show lookupA (removeLoop true s (removeQueue s e.tx true)
    removed).1.mapOrchardNullifiers nf = none
  rw [removeQueue_of_found hfind true,
    removeLoop_cons_some true s e.tx.txid [] removed e hfind]
  refine (removeLoop_shrink _ _ _ _).orchard_none ?_
  show lookupA (eraseAllA s.mapOrchardNullifiers (orchardNfs e.tx)) nf = none
  rw [lookupA_eraseAllA]
  simp [hp]

/-- Preservation of an invariant through a left fold. -/
theorem foldl_inv {α β : Type} (step : β → α → β) (Q : β → Prop) (l : List α)
    (init : β) (hstep : ∀ sr a, a ∈ l → Q sr → Q (step sr a)) (hinit : Q init) :
    Q (l.foldl step init) := by
  induction l generalizing init with
  | nil => exact hinit
  | cons a l ih =>
    exact ih (step init a)
      (fun sr b hb => hstep sr b (List.mem_cons_of_mem a hb))
      (hstep init a (List.mem_cons_self a l) hinit)

/-- Preservation of an invariant plus per-element postconditions through a
left fold whose steps only shrink the pool. -/
theorem foldl_inv_posts {α : Type} (step : (MemPool × List Tx) → α → MemPool × List Tx)
    (Q : MemPool × List Tx → Prop) (post : α → MemPool → Prop) (l : List α)
    (init : MemPool × List Tx)
    (hq : ∀ sr a, a ∈ l → Q sr → Q (step sr a))
    (hshr : ∀ sr a, PoolShrink (step sr a).1 sr.1)
    (hstable : ∀ a (s' s : MemPool), PoolShrink s' s → post a s → post a s')
    (hest : ∀ sr a, a ∈ l → Q sr → post a (step sr a).1)
    (hinit : Q init) :
    Q (l.foldl step init) ∧ ∀ a ∈ l, post a (l.foldl step init).1 := by
  induction l generalizing init with
  | nil => exact ⟨hinit, by simp⟩
  | cons a l ih =>
    obtain ⟨hql, hpostl⟩ := ih (step init a)
      (fun sr b hb => hq sr b (List.mem_cons_of_mem a hb))
      (fun sr b hb => hest sr b (List.mem_cons_of_mem a hb))
      (hq init a (List.mem_cons_self a l) hinit)
    refine ⟨hql, ?_⟩
    intro b hb
    rcases List.mem_cons.1 hb with rfl | hb
    · refine hstable b _ _ (foldl_shrink step hshr l (step init b)) ?_
      exact hest init b (List.mem_cons_self b l) hinit
    · exact hpostl b hb

/-- One transparent conflict step preserves the conflict invariant. -/
theorem conflictStepNext_inv (s0 : MemPool) (tx : Tx) (r0 : List Tx)
    (sr : MemPool × List Tx) (p : OutPt) (hp : p ∈ tx.vin)
    (hinv : ConflictInv s0 tx r0 sr) :
    ConflictInv s0 tx r0 (conflictStepNext tx sr p) := by
  obtain ⟨hwf, hshr, δ, hδ, hchar, hgone⟩ := hinv
  unfold conflictStepNext
  split
  next => exact ⟨hwf, hshr, δ, hδ, hchar, hgone⟩
  next hv hlook =>
    split
    next => exact ⟨hwf, hshr, δ, hδ, hchar, hgone⟩
    next ec hec =>
      split
      next hne =>
        have hectx : ec.tx.txid = hv.1 := (findTx_mem hec).2
        have hseed : ∀ e ∈ sr.1.mapTx, e.tx.txid = ec.tx.txid →
            overlapsTx tx e.tx ∧ e.tx.txid ≠ tx.txid := by
          intro e he htxid
          have he2 : e = ec := hwf.txid_inj he (findTx_mem hec).1 htxid
          subst he2
          refine ⟨?_, hne⟩
          obtain ⟨e', he', htx', hget⟩ := hwf.nextFwd _ (lookupA_mem hlook)
          have he3 : e = e' := hwf.txid_inj (findTx_mem hec).1 he'
            (by rw [hectx, htx'])
          subst he3
          exact Or.inl ⟨p, hp, vin_mem_iff_get.2 ⟨hv.2, hget⟩⟩
        obtain ⟨hwf', hpost', δr, hδr, hcharr, hgoner⟩ :=
          remove_master sr.1 ec.tx sr.2
            (fun u => overlapsTx tx u ∧ u.txid ≠ tx.txid) hwf hseed
        refine ⟨hwf', (remove_shrink _ _ _ _).trans hshr, δ ++ δr, ?_, ?_, ?_⟩
        · rw [hδr, hδ, List.append_assoc]
        · intro t ht
          rcases List.mem_append.1 ht with ht | ht
          · obtain ⟨hmem0, hnone0, hPf0⟩ := hchar t ht
            refine ⟨hmem0, (remove_shrink _ _ _ _).findTx_none hnone0, ?_⟩
            rcases hPf0 with hP | ⟨f, hf, hsp⟩
            · exact Or.inl hP
            · exact Or.inr ⟨f, by rw [hδr]; exact List.mem_append_left _ hf, hsp⟩
          · obtain ⟨⟨e', he', heq'⟩, hnone', hPf'⟩ := hcharr t ht
            refine ⟨⟨e', hshr.mapTx_sub e' he', heq'⟩, hnone', ?_⟩
            rcases hPf' with hP | hspec | ⟨f, hf, hsp⟩
            · exact Or.inl hP
            · -- t spends an output of the removed seed ec.tx
              refine Or.inr ⟨ec.tx, ?_, hspec⟩
              rw [hδr]
              refine List.mem_append_right _ (hgoner ec (findTx_mem hec).1 ?_)
              intro hmem
              have := hpost'
              rw [findTx_eq_none_iff] at this
              exact this ec hmem rfl
            · exact Or.inr ⟨f, hf, hsp⟩
        · intro e he hne'
          by_cases hmem1 : e ∈ sr.1.mapTx
          · exact List.mem_append_right _ (hgoner e hmem1 hne')
          · exact List.mem_append_left _ (hgone e he hmem1)
      next => exact ⟨hwf, hshr, δ, hδ, hchar, hgone⟩

/-- One shielded conflict step preserves the conflict invariant, for the
nullifier map selected by `read` with nullifier-listing `fnfs`. -/
theorem conflictStepNf_inv (read : MemPool → List (Nat × Nat))
    (fnfs : Tx → List Nat)
    (hwfread : ∀ st : MemPool, PoolWF st → NfMapWF st.mapTx (read st) fnfs)
    (s0 : MemPool) (tx : Tx) (r0 : List Tx) (sr : MemPool × List Tx) (nf : Nat)
    (hov : ∀ u : Tx, nf ∈ fnfs u → overlapsTx tx u)
    (hinv : ConflictInv s0 tx r0 sr) :
    ConflictInv s0 tx r0 (conflictStepNf read tx sr nf) := by
  obtain ⟨hwf, hshr, δ, hδ, hchar, hgone⟩ := hinv
  unfold conflictStepNf
  split
  next => exact ⟨hwf, hshr, δ, hδ, hchar, hgone⟩
  next hv hlook =>
    split
    next => exact ⟨hwf, hshr, δ, hδ, hchar, hgone⟩
    next ec hec =>
      split
      next hne =>
        have hectx : ec.tx.txid = hv := (findTx_mem hec).2
        have hseed : ∀ e ∈ sr.1.mapTx, e.tx.txid = ec.tx.txid →
            overlapsTx tx e.tx ∧ e.tx.txid ≠ tx.txid := by
          intro e he htxid
          have he2 : e = ec := hwf.txid_inj he (findTx_mem hec).1 htxid
          subst he2
          refine ⟨?_, hne⟩
          obtain ⟨e', he', htx', hnf'⟩ := (hwfread sr.1 hwf).1 _ (lookupA_mem hlook)
          have he3 : e = e' := hwf.txid_inj (findTx_mem hec).1 he'
            (by rw [hectx, htx'])
          subst he3
          exact hov e.tx hnf'
        obtain ⟨hwf', hpost', δr, hδr, hcharr, hgoner⟩ :=
          remove_master sr.1 ec.tx sr.2
            (fun u => overlapsTx tx u ∧ u.txid ≠ tx.txid) hwf hseed
        refine ⟨hwf', (remove_shrink _ _ _ _).trans hshr, δ ++ δr, ?_, ?_, ?_⟩
        · rw [hδr, hδ, List.append_assoc]
        · intro t ht
          rcases List.mem_append.1 ht with ht | ht
          · obtain ⟨hmem0, hnone0, hPf0⟩ := hchar t ht
            refine ⟨hmem0, (remove_shrink _ _ _ _).findTx_none hnone0, ?_⟩
            rcases hPf0 with hP | ⟨f, hf, hsp⟩
            · exact Or.inl hP
            · exact Or.inr ⟨f, by rw [hδr]; exact List.mem_append_left _ hf, hsp⟩
          · obtain ⟨⟨e', he', heq'⟩, hnone', hPf'⟩ := hcharr t ht
            refine ⟨⟨e', hshr.mapTx_sub e' he', heq'⟩, hnone', ?_⟩
            rcases hPf' with hP | hspec | ⟨f, hf, hsp⟩
            · exact Or.inl hP
            · refine Or.inr ⟨ec.tx, ?_, hspec⟩
              rw [hδr]
              refine List.mem_append_right _ (hgoner ec (findTx_mem hec).1 ?_)
              intro hmem
              have := hpost'
              rw [findTx_eq_none_iff] at this
              exact this ec hmem rfl
            · exact Or.inr ⟨f, hf, hsp⟩
        · intro e he hne'
          by_cases hmem1 : e ∈ sr.1.mapTx
          · exact List.mem_append_right _ (hgoner e hmem1 hne')
          · exact List.mem_append_left _ (hgone e he hmem1)
      next => exact ⟨hwf, hshr, δ, hδ, hchar, hgone⟩

/-- After the transparent conflict step for `p`, `mapNextTx` can only map
`p` to `tx`. -/
theorem conflictStepNext_post (tx : Tx) (sr : MemPool × List Tx) (p : OutPt)
    (hwf : PoolWF sr.1) :
    NextResolved tx (conflictStepNext tx sr p).1 p := by
  unfold conflictStepNext
  split
  next hlook =>
    intro v hv
    rw [hlook] at hv
    cases hv
  next hv hlook =>
    split
    next hres =>
      intro v hv'
      exfalso
      obtain ⟨e', he', htx', _⟩ := hwf.nextFwd _ (lookupA_mem hlook)
      obtain ⟨e'', hfe'', _⟩ := findTx_of_mem he' htx'
      rw [hres] at hfe''
      cases hfe''
    next ec hec =>
      split
      next hne =>
        intro v hv'
        exfalso
        have hfind : findTx sr.1.mapTx ec.tx.txid = some ec := by
          rw [(findTx_mem hec).2]
          exact hec
        have hpin : p ∈ ec.tx.vin := by
          obtain ⟨e', he', htx', hget⟩ := hwf.nextFwd _ (lookupA_mem hlook)
          have : ec = e' := hwf.txid_inj (findTx_mem hec).1 he'
            (by rw [(findTx_mem hec).2, htx'])
          subst this
          exact vin_mem_iff_get.2 ⟨hv.2, hget⟩
        have := remove_lookup_next_none sr.1 ec sr.2 hfind hpin
        rw [this] at hv'
        cases hv'
      next hne =>
        intro v hv'
        rw [hlook] at hv'
        cases hv'
        rw [← (findTx_mem hec).2]
        exact not_ne_iff.1 hne
  
/-- After the shielded conflict step for `nf`, the selected nullifier map
can only map `nf` to `tx`.  Generic in the map selector `read`; `herase`
states that recursively removing an entry erases its own nullifiers from
the selected map. -/
theorem conflictStepNf_post (read : MemPool → List (Nat × Nat))
    (fnfs : Tx → List Nat)
    (hwfread : ∀ st : MemPool, PoolWF st → NfMapWF st.mapTx (read st) fnfs)
    (herase : ∀ (s : MemPool) (e : Entry) (removed : List Tx),
      findTx s.mapTx e.tx.txid = some e → ∀ nf ∈ fnfs e.tx,
      lookupA (read (remove s e.tx removed true).1) nf = none)
    (tx : Tx) (sr : MemPool × List Tx) (nf : Nat) (hwf : PoolWF sr.1) :
    ∀ h', lookupA (read (conflictStepNf read tx sr nf).1) nf = some h' →
      h' = tx.txid := by
  unfold conflictStepNf
  split
  next hlook =>
    intro h' hv
    rw [hlook] at hv
    cases hv
  next hv hlook =>
    split
    next hres =>
      intro h' hv'
      exfalso
      obtain ⟨e', he', htx', _⟩ := (hwfread sr.1 hwf).1 _ (lookupA_mem hlook)
      obtain ⟨e'', hfe'', _⟩ := findTx_of_mem he' htx'
      rw [hres] at hfe''
      cases hfe''
    next ec hec =>
      split
      next hne =>
        intro h' hv'
        exfalso
        have hfind : findTx sr.1.mapTx ec.tx.txid = some ec := by
          rw [(findTx_mem hec).2]
          exact hec
        have hnfin : nf ∈ fnfs ec.tx := by
          obtain ⟨e', he', htx', hnf'⟩ := (hwfread sr.1 hwf).1 _ (lookupA_mem hlook)
          have : ec = e' := hwf.txid_inj (findTx_mem hec).1 he'
            (by rw [(findTx_mem hec).2, htx'])
          subst this
          exact hnf'
        have := herase sr.1 ec sr.2 hfind nf hnfin
        rw [this] at hv'
        cases hv'
      next hne =>
        intro h' hv'
        rw [hlook] at hv'
        cases hv'
        rw [← (findTx_mem hec).2]
        exact not_ne_iff.1 hne

/-- A fold whose steps fix the accumulator is the identity. -/
theorem foldl_const {α β : Type} (step : β → α → β) (l : List α) (b : β)
    (h : ∀ a ∈ l, step b a = b) : l.foldl step b = b := by
  induction l with
  | nil => rfl
  | cons a l ih =>
    rw [List.foldl_cons, h a (List.mem_cons_self a l)]
    exact ih (fun a ha => h a (List.mem_cons_of_mem _ ha))

theorem conflictStepNext_fixed (tx : Tx) (s : MemPool) (removed : List Tx)
    (p : OutPt) (hlook : ∀ v, lookupA s.mapNextTx p = some v → v.1 = tx.txid) :
    conflictStepNext tx (s, removed) p = (s, removed) := by
  unfold conflictStepNext
  split
  next => rfl
  next hv heq =>
    split
    next => rfl
    next ec hec =>
      split
      next hne =>
        exfalso
        apply hne
        rw [(findTx_mem hec).2]
        exact hlook hv heq
      next => rfl

theorem conflictStepNf_fixed (read : MemPool → List (Nat × Nat)) (tx : Tx)
    (s : MemPool) (removed : List Tx) (nf : Nat)
    (hlook : ∀ h', lookupA (read s) nf = some h' → h' = tx.txid) :
    conflictStepNf read tx (s, removed) nf = (s, removed) := by
  unfold conflictStepNf
  split
  next => rfl
  next hv heq =>
    split
    next => rfl
    next ec hec =>
      split
      next hne =>
        exfalso
        apply hne
        rw [(findTx_mem hec).2]
        exact hlook hv heq
      next => rfl

/-- **C2** (amended).  Over a well-formed pool (txids determining
transactions), `removeConflicts(tx)` removes exactly the entries whose
transparent inputs or sprout/sapling/orchard nullifiers overlap those of
`tx` (excluding `tx` itself) **together with the recursive in-pool
descendants of removed entries**: every transaction appended to the
out-list is an erased pool entry that either overlaps `tx` (and is not
`tx`), or spends an output of another removed transaction; every erased
entry is appended; no surviving entry other than `tx` overlaps `tx`; and
when `tx` itself is in the pool the call removes nothing at all. -/
theorem removeConflicts_spec (s : MemPool) (tx : Tx) (removed : List Tx)
    (hwf : PoolWF s)
    (hinj : ∀ e ∈ s.mapTx, e.tx.txid = tx.txid → e.tx = tx) :
    PoolWF (removeConflicts s tx removed).1 ∧
    (∀ e ∈ (removeConflicts s tx removed).1.mapTx, e ∈ s.mapTx) ∧
    (∃ δ, (removeConflicts s tx removed).2 = removed ++ δ ∧
      (∀ t ∈ δ, (∃ e ∈ s.mapTx, e.tx = t) ∧
        findTx (removeConflicts s tx removed).1.mapTx t.txid = none ∧
        ((overlapsTx tx t ∧ t.txid ≠ tx.txid) ∨
          ∃ f ∈ (removeConflicts s tx removed).2, spendsOutputOf t f)) ∧
      (∀ e ∈ s.mapTx, e ∉ (removeConflicts s tx removed).1.mapTx → e.tx ∈ δ)) ∧
    (∀ e ∈ (removeConflicts s tx removed).1.mapTx, e.tx.txid ≠ tx.txid →
      ¬ overlapsTx tx e.tx) ∧
    (∀ e ∈ s.mapTx, e.tx.txid = tx.txid →
      removeConflicts s tx removed = (s, removed)) := by
  have hrc : removeConflicts s tx removed =
      (orchardNfs tx).foldl (conflictStepNf (fun st => st.mapOrchardNullifiers) tx)
        ((saplingNfs tx).foldl (conflictStepNf (fun st => st.mapSaplingNullifiers) tx)
          ((sproutNfs tx).foldl (conflictStepNf (fun st => st.mapSproutNullifiers) tx)
            (tx.vin.foldl (conflictStepNext tx) (s, removed)))) := rfl
  have hinit : ConflictInv s tx removed (s, removed) := by
    refine ⟨hwf, PoolShrink.rfl s, [], by simp, by simp, ?_⟩
    intro e he hne
    exact absurd he hne
  obtain ⟨hq1, hpost1⟩ := foldl_inv_posts (conflictStepNext tx)
    (ConflictInv s tx removed) (fun p st => NextResolved tx st p) tx.vin
    (s, removed)
    (fun sr p hp hq => conflictStepNext_inv s tx removed sr p hp hq)
    (fun sr p => conflictStepNext_shrink tx sr p)
    (fun p s' s'' hs hpost v hv => hpost v (hs.next_sub _ _ hv))
    (fun sr p _ hq => conflictStepNext_post tx sr p hq.1)
    hinit
  obtain ⟨hq2, hpost2⟩ := foldl_inv_posts
    (conflictStepNf (fun st => st.mapSproutNullifiers) tx)
    (ConflictInv s tx removed) (fun nf st => SproutResolved tx st nf)
    (sproutNfs tx) (tx.vin.foldl (conflictStepNext tx) (s, removed))
    (fun sr nf hnf hq => conflictStepNf_inv _ sproutNfs
      (fun st h => h.sproutWF) s tx removed sr nf
      (fun u hu => Or.inr (Or.inl ⟨nf, hnf, hu⟩)) hq)
    (fun sr nf => conflictStepNf_shrink _ tx sr nf)
    (fun nf s' s'' hs hpost h' hv => hpost h' (hs.sprout_sub _ _ hv))
    (fun sr nf _ hq => conflictStepNf_post _ sproutNfs (fun st h => h.sproutWF)
      (fun s' e' removed' hfind nf' hnf' =>
        remove_lookup_sprout_none s' e' removed' hfind hnf') tx sr nf hq.1)
    hq1
  obtain ⟨hq3, hpost3⟩ := foldl_inv_posts
    (conflictStepNf (fun st => st.mapSaplingNullifiers) tx)
    (ConflictInv s tx removed) (fun nf st => SaplingResolved tx st nf)
    (saplingNfs tx)
    ((sproutNfs tx).foldl (conflictStepNf (fun st => st.mapSproutNullifiers) tx)
      (tx.vin.foldl (conflictStepNext tx) (s, removed)))
    (fun sr nf hnf hq => conflictStepNf_inv _ saplingNfs
      (fun st h => h.saplingWF) s tx removed sr nf
      (fun u hu => Or.inr (Or.inr (Or.inl ⟨nf, hnf, hu⟩))) hq)
    (fun sr nf => conflictStepNf_shrink _ tx sr nf)
    (fun nf s' s'' hs hpost h' hv => hpost h' (hs.sapling_sub _ _ hv))
    (fun sr nf _ hq => conflictStepNf_post _ saplingNfs (fun st h => h.saplingWF)
      (fun s' e' removed' hfind nf' hnf' =>
        remove_lookup_sapling_none s' e' removed' hfind hnf') tx sr nf hq.1)
    hq2
  obtain ⟨hq4, hpost4⟩ := foldl_inv_posts
    (conflictStepNf (fun st => st.mapOrchardNullifiers) tx)
    (ConflictInv s tx removed) (fun nf st => OrchardResolved tx st nf)
    (orchardNfs tx)
    ((saplingNfs tx).foldl (conflictStepNf (fun st => st.mapSaplingNullifiers) tx)
      ((sproutNfs tx).foldl (conflictStepNf (fun st => st.mapSproutNullifiers) tx)
        (tx.vin.foldl (conflictStepNext tx) (s, removed))))
    (fun sr nf hnf hq => conflictStepNf_inv _ orchardNfs
      (fun st h => h.orchardWF) s tx removed sr nf
      (fun u hu => Or.inr (Or.inr (Or.inr ⟨nf, hnf, hu⟩))) hq)
    (fun sr nf => conflictStepNf_shrink _ tx sr nf)
    (fun nf s' s'' hs hpost h' hv => hpost h' (hs.orchard_sub _ _ hv))
    (fun sr nf _ hq => conflictStepNf_post _ orchardNfs (fun st h => h.orchardWF)
      (fun s' e' removed' hfind nf' hnf' =>
        remove_lookup_orchard_none s' e' removed' hfind hnf') tx sr nf hq.1)
    hq3
  rw [hrc]
  obtain ⟨hwf4, hshr4, δ, hδ, hchar, hgone⟩ := hq4
  -- shrink links between the fold stages
  have hshr21 : PoolShrink
      ((sproutNfs tx).foldl (conflictStepNf (fun st => st.mapSproutNullifiers) tx)
        (tx.vin.foldl (conflictStepNext tx) (s, removed))).1
      (tx.vin.foldl (conflictStepNext tx) (s, removed)).1 :=
    foldl_shrink _ (conflictStepNf_shrink _ tx) _ _
  have hshr32 : PoolShrink
      ((saplingNfs tx).foldl (conflictStepNf (fun st => st.mapSaplingNullifiers) tx)
        ((sproutNfs tx).foldl (conflictStepNf (fun st => st.mapSproutNullifiers) tx)
          (tx.vin.foldl (conflictStepNext tx) (s, removed)))).1
      ((sproutNfs tx).foldl (conflictStepNf (fun st => st.mapSproutNullifiers) tx)
        (tx.vin.foldl (conflictStepNext tx) (s, removed))).1 :=
    foldl_shrink _ (conflictStepNf_shrink _ tx) _ _
  have hshr43 : PoolShrink
      ((orchardNfs tx).foldl (conflictStepNf (fun st => st.mapOrchardNullifiers) tx)
        ((saplingNfs tx).foldl (conflictStepNf (fun st => st.mapSaplingNullifiers) tx)
          ((sproutNfs tx).foldl (conflictStepNf (fun st => st.mapSproutNullifiers) tx)
            (tx.vin.foldl (conflictStepNext tx) (s, removed))))).1
      ((saplingNfs tx).foldl (conflictStepNf (fun st => st.mapSaplingNullifiers) tx)
        ((sproutNfs tx).foldl (conflictStepNf (fun st => st.mapSproutNullifiers) tx)
          (tx.vin.foldl (conflictStepNext tx) (s, removed)))).1 :=
    foldl_shrink _ (conflictStepNf_shrink _ tx) _ _
  refine ⟨hwf4, hshr4.mapTx_sub, ⟨δ, hδ, hchar, hgone⟩, ?_, ?_⟩
  · -- completeness: no overlapping survivor besides tx
    intro e he hne hov
    rcases hov with ⟨p, hptx, hpe⟩ | ⟨nf, h1, h2⟩ | ⟨nf, h1, h2⟩ | ⟨nf, h1, h2⟩
    · obtain ⟨k, hk⟩ := vin_mem_iff_get.1 hpe
      have hrow := hwf4.nextBwd e he (k, p) (mem_vinRows_iff.2 hk)
      have := hpost1 p hptx (e.tx.txid, k)
        (hshr21.next_sub _ _ (hshr32.next_sub _ _ (hshr43.next_sub _ _ hrow)))
      exact hne this
    · have hrow := hwf4.sproutWF.2 e he nf h2
      have := hpost2 nf h1 e.tx.txid
        (hshr32.sprout_sub _ _ (hshr43.sprout_sub _ _ hrow))
      exact hne this
    · have hrow := hwf4.saplingWF.2 e he nf h2
      have := hpost3 nf h1 e.tx.txid (hshr43.sapling_sub _ _ hrow)
      exact hne this
    · have hrow := hwf4.orchardWF.2 e he nf h2
      have := hpost4 nf h1 e.tx.txid hrow
      exact hne this
  · -- tx present: every step is the identity
    intro e0 he0 htx0
    have hetx : e0.tx = tx := hinj e0 he0 htx0
    have hfix1 : tx.vin.foldl (conflictStepNext tx) (s, removed) = (s, removed) := by
      refine foldl_const _ _ _ ?_
      intro p hp
      refine conflictStepNext_fixed tx s removed p ?_
      intro v hv
      have hpin : p ∈ e0.tx.vin := by rw [hetx]; exact hp
      obtain ⟨k, hk⟩ := vin_mem_iff_get.1 hpin
      have := hwf.nextBwd e0 he0 (k, p) (mem_vinRows_iff.2 hk)
      rw [this] at hv
      cases hv
      exact htx0
    have hfix2 : (sproutNfs tx).foldl
        (conflictStepNf (fun st => st.mapSproutNullifiers) tx) (s, removed) =
        (s, removed) := by
      refine foldl_const _ _ _ ?_
      intro nf hnf
      refine conflictStepNf_fixed _ tx s removed nf ?_
      intro h' hv
      have hin : nf ∈ sproutNfs e0.tx := by rw [hetx]; exact hnf
      have := hwf.sproutWF.2 e0 he0 nf hin
      rw [this] at hv
      cases hv
      exact htx0
    have hfix3 : (saplingNfs tx).foldl
        (conflictStepNf (fun st => st.mapSaplingNullifiers) tx) (s, removed) =
        (s, removed) := by
      refine foldl_const _ _ _ ?_
      intro nf hnf
      refine conflictStepNf_fixed _ tx s removed nf ?_
      intro h' hv
      have hin : nf ∈ saplingNfs e0.tx := by rw [hetx]; exact hnf
      have := hwf.saplingWF.2 e0 he0 nf hin
      rw [this] at hv
      cases hv
      exact htx0
    have hfix4 : (orchardNfs tx).foldl
        (conflictStepNf (fun st => st.mapOrchardNullifiers) tx) (s, removed) =
        (s, removed) := by
      refine foldl_const _ _ _ ?_
      intro nf hnf
      refine conflictStepNf_fixed _ tx s removed nf ?_
      intro h' hv
      have hin : nf ∈ orchardNfs e0.tx := by rw [hetx]; exact hnf
      have := hwf.orchardWF.2 e0 he0 nf hin
      rw [this] at hv
      cases hv
      exact htx0
    rw [hfix1, hfix2, hfix3, hfix4]

/-- **C2** counterexample: the claim says `removeConflicts(tx)` removes
*exactly* the overlapping entries.  On the pool holding `txA` (spending
outpoint (100,0)) and its child `txB` (spending `txA`'s output),
`removeConflicts` of the conflicting `txX` (`txX` also spends (100,0))
also removes `txB`, which shares no input and no nullifier with `txX`. -/
theorem removeConflicts_removes_nonoverlapping :
    entryB ∈ poolAB.mapTx ∧
    ¬ overlapsTx txX txB ∧
    txB.txid ≠ txX.txid ∧
    findTx (removeConflicts poolAB txX []).1.mapTx txB.txid = none := by
  refine ⟨by decide, by decide, by decide, ?_⟩
  show findTx (remove poolAB txA [] true).1.mapTx 2 = none
  show findTx (removeLoop true poolAB (removeQueue poolAB txA true) []).1.mapTx
    2 = none
  have hq : removeQueue poolAB txA true = [1] := by decide
  rw [hq, removeLoop_cons_some true poolAB 1 [] [] entryA (by decide)]
  exact removeLoop_queue_post true (removeEntryFrom poolAB 1 entryA) _ _ 2
    (by decide)

/-- **C2** witness: the amended theorem applied to the concrete pool
`poolAB` and the conflicting transaction `txX`, with both hypotheses
decided. -/
theorem removeConflicts_spec_witness :
    PoolWF (removeConflicts poolAB txX []).1 :=
  (removeConflicts_spec poolAB txX [] (by decide) (by decide)).1
